import Mathlib

set_option maxRecDepth 8000

/-!
Verification of the SRT subtitle transformation pipeline of this
repository (srt_tool_app/utils.py and srt_tool_app/core.py).

Modelling conventions (shallow embedding):
* Python strings are lists of characters (Str below).
* Python timedelta values are exact rational numbers of seconds;
  datetime instants (which arise only inside shift_time_string) are
  integer microsecond counts since 1900-01-01 00:00:00.  A fractional
  seconds offset is converted to microseconds with round-half-to-even,
  as the timedelta constructor does.
* Whitespace and digit classification follow the ASCII subset of the
  Python definitions, which is the only part the pipeline exercises.
* The datetime year range is years 1 to 9999, as in Python: shifting
  an instant outside it raises an OverflowError that shift_time_string
  does not catch (its try covers only strptime), modelled as none.
-/

namespace SrtTool

abbrev Str := List Char

/-- The characters removed by Python str.strip() with no argument
(ASCII subset: space, tab, newline, carriage return, vertical tab,
form feed). -/
def pyIsSpace (c : Char) : Bool :=
  c = ' ' || c = '\t' || c = '\n' || c = '\r' || c = Char.ofNat 11 || c = Char.ofNat 12

/-- Python str.strip(): remove leading and trailing whitespace. -/
def stripL (s : Str) : Str :=
  ((s.dropWhile pyIsSpace).reverse.dropWhile pyIsSpace).reverse

/-- Python str.isdigit() (ASCII decimal digits): nonempty and all digits. -/
def pyIsDigit (s : Str) : Bool :=
  !s.isEmpty && s.all (fun c => c.isDigit)

/-- Python s.split("\n\n"): cut at leftmost, non-overlapping
occurrences of the two-newline separator. -/
def splitNN : Str → List Str
  | [] => [[]]
  | [c] => [[c]]
  | c :: b :: rest =>
    if c = '\n' ∧ b = '\n' then
      [] :: splitNN rest
    else
      match splitNN (b :: rest) with
      | [] => [[c]]
      | p :: ps => (c :: p) :: ps

/-- Python s.split("\n"). -/
def splitNl : Str → List Str
  | [] => [[]]
  | c :: rest =>
    if c = '\n' then
      [] :: splitNl rest
    else
      match splitNl rest with
      | [] => [[c]]
      | p :: ps => (c :: p) :: ps

/-- Python s.split(" --> "). -/
def splitArrow : Str → List Str
  | ' ' :: '-' :: '-' :: '>' :: ' ' :: rest => [] :: splitArrow rest
  | c :: rest =>
    match splitArrow rest with
    | [] => [[c]]
    | p :: ps => (c :: p) :: ps
  | [] => [[]]

/-- Python "\n".join(parts). -/
def joinNl : List Str → Str
  | [] => []
  | [x] => x
  | x :: y :: ys => x ++ '\n' :: joinNl (y :: ys)

/-- Decimal digit writer with structural fuel (the fuel argument only
serves termination; any fuel above the argument gives the digits). -/
def natLitAux : ℕ → ℕ → Str
  | 0, _ => []
  | fuel + 1, n =>
    if n < 10 then [Nat.digitChar n] else natLitAux fuel (n / 10) ++ [Nat.digitChar (n % 10)]

/-- Decimal digits of a natural number, as Python str(n) renders them. -/
def natLit (n : ℕ) : Str := natLitAux (n + 1) n

/-- Numeric value of one ASCII digit character. -/
def digitVal (c : Char) : ℕ := c.toNat - 48

/-- Numeric value of a digit string (most significant first). -/
def digitsVal (ds : Str) : ℕ := ds.foldl (fun a c => 10 * a + digitVal c) 0

/-- Python int(s) restricted to the shapes the pipeline can produce:
optional surrounding whitespace, optional sign, a nonempty run of
decimal digits.  (Underscore digit grouping is not modelled; no caller
in the pipeline can produce it.) -/
def pyInt (s : Str) : Option ℤ :=
  match stripL s with
  | '-' :: ds => if pyIsDigit ds then some (-(digitsVal ds : ℤ)) else none
  | '+' :: ds => if pyIsDigit ds then some ((digitsVal ds : ℤ)) else none
  | ds => if pyIsDigit ds then some ((digitsVal ds : ℤ)) else none

/-! ### Computable rational arithmetic

The rational field operations of the ambient library are marked
irreducible, which blocks kernel evaluation of concrete instances.
The pipeline definitions below therefore use the following
Rat.divInt-based implementations; they are proved equal to the field
operations (qAdd_eq and friends), and every abstract theorem is stated
with the field operations. -/

/-- Rational addition by cross multiplication. -/
def qAdd (a b : ℚ) : ℚ := Rat.divInt (a.num * b.den + b.num * a.den) (a.den * b.den)

/-- Rational subtraction by cross multiplication. -/
def qSub (a b : ℚ) : ℚ := Rat.divInt (a.num * b.den - b.num * a.den) (a.den * b.den)

/-- Rational multiplication. -/
def qMul (a b : ℚ) : ℚ := Rat.divInt (a.num * b.num) (a.den * b.den)

/-- Rational division (zero when the divisor is zero). -/
def qDiv (a b : ℚ) : ℚ := Rat.divInt (a.num * b.den) (a.den * b.num)

/-- A natural number as a rational. -/
def qNat (n : ℕ) : ℚ := Rat.divInt n 1

/-- An integer as a rational. -/
def qInt (z : ℤ) : ℚ := Rat.divInt z 1

theorem qNat_eq (n : ℕ) : qNat n = (n : ℚ) := by
  simp [qNat, Rat.divInt_eq_div]

theorem qInt_eq (z : ℤ) : qInt z = (z : ℚ) := by
  simp [qInt, Rat.divInt_eq_div]

theorem qAdd_eq (a b : ℚ) : qAdd a b = a + b := by
  conv_rhs => rw [← Rat.num_divInt_den a, ← Rat.num_divInt_den b]
  rw [Rat.divInt_add_divInt _ _ (Int.natCast_ne_zero.mpr a.den_nz) (Int.natCast_ne_zero.mpr b.den_nz)]
  rfl

theorem qSub_eq (a b : ℚ) : qSub a b = a - b := by
  conv_rhs => rw [← Rat.num_divInt_den a, ← Rat.num_divInt_den b]
  rw [Rat.divInt_sub_divInt _ _ (Int.natCast_ne_zero.mpr a.den_nz) (Int.natCast_ne_zero.mpr b.den_nz)]
  rfl

theorem qMul_eq (a b : ℚ) : qMul a b = a * b := by
  conv_rhs => rw [← Rat.num_divInt_den a, ← Rat.num_divInt_den b]
  rw [Rat.divInt_mul_divInt']
  rfl

theorem qDiv_eq (a b : ℚ) : qDiv a b = a / b := by
  rw [Rat.div_def']
  rfl

/-! ### Time codec: datetime.strptime with format "%H:%M:%S.%f" -/

/-- The %f directive: one to six digits, padded on the right with
zeros to microseconds. -/
def fracVal (ds : Str) : ℕ :=
  digitsVal (ds ++ List.replicate (6 - ds.length) '0')

/-- Match the tail ".<frac>" at the end of the input (the %f regex is
greedy and the whole input must be consumed, so this succeeds exactly
when the rest is a dot followed by one to six digits). -/
def parseDotFrac : Str → Option ℕ
  | '.' :: rest =>
    if !rest.isEmpty && rest.length ≤ 6 && rest.all (fun c => c.isDigit) then
      some (fracVal rest)
    else
      none
  | _ => none

/-- One strptime numeric field whose regex admits two-digit values up
to hi and any single digit.  The two-digit alternative is tried first;
on failure of the continuation the single-digit alternative is tried,
mirroring regex backtracking. -/
def parseField2 (hi : ℕ) (k : ℕ → Str → Option α) : Str → Option α
  | c1 :: c2 :: rest =>
    match
      (if c1.isDigit && c2.isDigit && decide (10 * digitVal c1 + digitVal c2 ≤ hi) then
         k (10 * digitVal c1 + digitVal c2) rest
       else none) with
    | some v => some v
    | none => if c1.isDigit then k (digitVal c1) (c2 :: rest) else none
  | [c1] => if c1.isDigit then k (digitVal c1) [] else none
  | [] => none

/-- datetime.strptime(s, "%H:%M:%S.%f") as (hour, minute, second,
microsecond).  The %H regex admits 0..23, %M admits 0..59, %S admits
0..61 but the datetime constructor then rejects 60 and 61 (the
single-digit fallback can never rescue such an input, since the
character after a matched two-digit seconds field must be a dot). -/
def strptimeHMSf (s : Str) : Option (ℕ × ℕ × ℕ × ℕ) :=
  parseField2 23 (fun h r1 =>
    match r1 with
    | ':' :: r2 =>
      parseField2 59 (fun m r3 =>
        match r3 with
        | ':' :: r4 =>
          parseField2 61 (fun sec r5 =>
            match parseDotFrac r5 with
            | some us => if sec ≤ 59 then some (h, m, sec, us) else none
            | none => none) r4
        | _ => none) r2
    | _ => none) s

/-- Python s.replace(",", "."). -/
def replaceCommaDot (s : Str) : Str :=
  s.map (fun c => if c = ',' then '.' else c)

/-- Python s.replace(".", ","). -/
def replaceDotComma (s : Str) : Str :=
  s.map (fun c => if c = '.' then ',' else c)

/-- Microseconds since midnight of a parsed time tuple. -/
def usOfHMSf (h m s us : ℕ) : ℕ :=
  (h * 3600 + m * 60 + s) * 1000000 + us

/-- Python f-string {n:0wd} for a nonnegative value: zero-pad the
decimal digits to the requested width. -/
def fmtNat (width : ℕ) (n : ℕ) : Str :=
  List.replicate (width - (natLit n).length) '0' ++ natLit n

/-- Python f-string {z:0wd}: the sign occupies one position of the
zero-padded width. -/
def fmtInt (width : ℕ) (z : ℤ) : Str :=
  if z < 0 then '-' :: fmtNat (width - 1) z.natAbs else fmtNat width z.toNat

/-- strftime("%H:%M:%S.%f")[:-3] on 1900-01-01 00:00:00 plus the given
number of microseconds: the hour field is the hour of the day, so the
rendering wraps at 24 hours; slicing off the last three characters
truncates microseconds to milliseconds. -/
def strftimeMs (us : ℤ) : Str :=
  let t := us % 86400000000
  fmtNat 2 (t / 3600000000).toNat ++ ':' :: fmtNat 2 ((t / 60000000) % 60).toNat
    ++ ':' :: fmtNat 2 ((t / 1000000) % 60).toNat ++ '.' :: fmtNat 3 ((t % 1000000) / 1000).toNat

/-- Round a rational to an integer, halves to even, as Python round()
and the timedelta constructor do. -/
def rndHalfEven (q : ℚ) : ℤ :=
  if qSub q (qInt ⌊q⌋) < Rat.divInt 1 2 then ⌊q⌋
  else if Rat.divInt 1 2 < qSub q (qInt ⌊q⌋) then ⌊q⌋ + 1
  else if ⌊q⌋ % 2 = 0 then ⌊q⌋ else ⌊q⌋ + 1

/-- Microseconds from the strptime base instant 1900-01-01 00:00:00
back to datetime.min, 0001-01-01 00:00:00: 693595 proleptic Gregorian
days of 86400000000 microseconds. -/
def dtMinUs : ℤ := -59926608000000000

/-- Microseconds from the base instant forward to datetime.max,
9999-12-31 23:59:59.999999: 2958463 days plus the last microsecond of
a day. -/
def dtMaxUs : ℤ := 255611289599999999

/-- utils.shift_time_string: parse the stripped, comma-normalised text
with strptime; on failure return the stripped original.  Otherwise add
the offset (converted to whole microseconds by the timedelta
constructor).  The try covers only strptime, so when the shifted
instant leaves the supported datetime range (before year 1 or after
year 9999) the addition raises an uncaught OverflowError, modelled as
none.  (An offset magnitude the timedelta constructor itself rejects
raises the same uncaught error one line earlier; every such offset
also moves the sum outside the far wider datetime range, so the single
range test is exact.)  Within range, clamp below at the zero datetime,
format, and restore a comma separator when the original text contained
a comma. -/
def shift_time_string (time_str : Str) (offset_seconds : ℚ) : Option Str :=
  let is_comma := time_str.contains ','
  match strptimeHMSf (replaceCommaDot (stripL time_str)) with
  | none => some (stripL time_str)
  | some (h, m, s, us) =>
    let dtUs : ℤ := usOfHMSf h m s us
    let deltaUs : ℤ := rndHalfEven (qMul offset_seconds (qNat 1000000))
    if dtUs + deltaUs < dtMinUs ∨ dtMaxUs < dtUs + deltaUs then
      none
    else
      let newUs : ℤ := if dtUs + deltaUs < 0 then 0 else dtUs + deltaUs
      let out := strftimeMs newUs
      some (if is_comma then replaceDotComma out else out)

/-- utils._time_str_to_timedelta: the parsed duration in seconds, or
zero when strptime fails. -/
def _time_str_to_timedelta (time_str : Str) : ℚ :=
  match strptimeHMSf (replaceCommaDot (stripL time_str)) with
  | none => 0
  | some (h, m, s, us) => qDiv (qNat (usOfHMSf h m s us)) (qNat 1000000)

/-- utils._timedelta_to_time_str: divmod the total seconds into fields
(floor semantics, as Python divmod) and render with a comma millisecond
separator.  int() truncation coincides with floor on the nonnegative
remainder fields. -/
def _timedelta_to_time_str (td : ℚ) : Str :=
  let hours : ℤ := ⌊qDiv td (qNat 3600)⌋
  let remainder : ℚ := qSub td (qMul (qNat 3600) (qInt hours))
  let minutes : ℤ := ⌊qDiv remainder (qNat 60)⌋
  let seconds : ℚ := qSub remainder (qMul (qNat 60) (qInt minutes))
  let milliseconds : ℤ := ⌊qMul (qSub seconds (qInt ⌊seconds⌋)) (qNat 1000)⌋
  fmtInt 2 hours ++ ':' :: fmtInt 2 minutes ++ ':' :: fmtInt 2 ⌊seconds⌋
    ++ ',' :: fmtInt 3 milliseconds

/-! ### Block parser (utils.parse_srt_content) -/

/-- One parsed subtitle block: index text, time-range line, text. -/
structure SrtBlock where
  number : Str
  time : Str
  text : Str
deriving DecidableEq

/-- Match the timestamp regex fragment two-digits colon two-digits
colon two-digits comma-or-dot three-digits at the head of the input,
returning the rest. -/
def tsPat : Str → Option Str
  | c1 :: c2 :: ':' :: c3 :: c4 :: ':' :: c5 :: c6 :: sep :: m1 :: m2 :: m3 :: rest =>
    if c1.isDigit && c2.isDigit && c3.isDigit && c4.isDigit && c5.isDigit && c6.isDigit
        && (sep = ',' || sep = '.') && m1.isDigit && m2.isDigit && m3.isDigit then
      some rest
    else
      none
  | _ => none

/-- Match the full time-range regex (timestamp, optional whitespace,
the arrow, optional whitespace, timestamp) at the head of the input.
The whitespace repetitions are greedy and an arrow never begins with a
whitespace character, so no backtracking is possible. -/
def timeMatchAt (s : Str) : Bool :=
  match tsPat s with
  | none => false
  | some r1 =>
    match (r1.dropWhile pyIsSpace) with
    | '-' :: '-' :: '>' :: r2 => (tsPat (r2.dropWhile pyIsSpace)).isSome
    | _ => false

/-- re.search of the time-range pattern: does it match at any start
position. -/
def timeSearch : Str → Bool
  | [] => false
  | c :: r => timeMatchAt (c :: r) || timeSearch r

/-- The scan of parse_srt_content for the first line matching the
time pattern: lines before the anchor, the anchor, lines after. -/
def findAnchor : List Str → Option (List Str × Str × List Str)
  | [] => none
  | l :: ls =>
    if timeSearch l then
      some ([], l, ls)
    else
      match findAnchor ls with
      | none => none
      | some (pre, t, post) => some (l :: pre, t, post)

/-- The chunk loop of parse_srt_content, carrying the fallback block
counter (incremented once per emitted block). -/
def parseChunks : List Str → ℕ → List SrtBlock
  | [], _ => []
  | chunk :: rest, counter =>
    match splitNl (stripL chunk) with
    | [] => parseChunks rest counter
    | l0 :: ltail =>
      if l0 = [] then
        parseChunks rest counter
      else
        match findAnchor (l0 :: ltail) with
        | none => parseChunks rest counter
        | some (number_part, time_line, text_part) =>
          let number_str := stripL (joinNl number_part)
          let number := if pyIsDigit number_str then number_str else natLit counter
          { number := number, time := stripL time_line, text := stripL (joinNl text_part) }
            :: parseChunks rest (counter + 1)

/-- utils.parse_srt_content. -/
def parse_srt_content (content : Str) : List SrtBlock :=
  parseChunks (splitNN (stripL content)) 1

/-! ### Splitter (the file contents written by core._split_single_srt) -/

/-- The time-stream text: for each block the index line, the time
line, and a blank separator line. -/
def splitTimeContent (blocks : List SrtBlock) : Str :=
  (blocks.map (fun b => b.number ++ '\n' :: b.time ++ ['\n', '\n'])).flatten

/-- The sentence-stream text: for each block the index line, the text,
and a blank separator line. -/
def splitSentenceContent (blocks : List SrtBlock) : Str :=
  (blocks.map (fun b => b.number ++ '\n' :: b.text ++ ['\n', '\n'])).flatten

/-! ### Validators (utils._validate_translation_format and
utils._validate_sequential_numbering) -/

/-- The index loop of _validate_translation_format: walk adjacent line
pairs from position i, returning the position of the first purely
numeric line whose predecessor is not blank. -/
def firstFormatViolation : List Str → ℕ → Option ℕ
  | prev :: cur :: rest, i =>
    if pyIsDigit (stripL cur) && !(stripL prev).isEmpty then
      some i
    else
      firstFormatViolation (cur :: rest) (i + 1)
  | _, _ => none

/-- utils._validate_translation_format (the source's local variable
lines is inlined as splitNl (stripL content)). -/
def _validate_translation_format (content : Str) : Bool × ℤ :=
  if (splitNl (stripL content)).length ≤ 1 then
    (true, -1)
  else
    match firstFormatViolation (splitNl (stripL content)) 1 with
    | some i => (false, (i : ℤ))
    | none => (true, -1)

/-- The block loop of _validate_sequential_numbering, carrying the
expected index; int() failure on a block number is the except branch. -/
def seqLoop : List SrtBlock → ℤ → Bool × ℤ
  | [], _ => (true, -1)
  | b :: rest, expected =>
    match pyInt b.number with
    | none => (false, expected)
    | some n => if n ≠ expected then (false, expected) else seqLoop rest (expected + 1)

/-- utils._validate_sequential_numbering. -/
def _validate_sequential_numbering (content : Str) : Bool × ℤ :=
  seqLoop (parse_srt_content content) 1

/-! ### Merger (core._merge_single_srt) -/

/-- Sum of the text line lengths (Python len over a str counts code
points). -/
def sumLens (ls : List Str) : ℕ :=
  (ls.map List.length).sum

/-- The time spans allocated by the proportional-split loop: the
running start advances by total-duration times the character-length
weight of each line, and the final end is forced to end_td. -/
def proportionalSpans (end_td total_duration : ℚ) (total_len : ℕ) :
    ℚ → List Str → List (ℚ × ℚ)
  | _, [] => []
  | cur, [_] => [(cur, end_td)]
  | cur, line :: next :: rest =>
    let line_end := qAdd cur (qMul total_duration (qDiv (qNat line.length) (qNat total_len)))
    (cur, line_end) :: proportionalSpans end_td total_duration total_len line_end (next :: rest)

/-- The text lines of a sentence chunk: drop a leading line that is a
digit string equal to the paired original index, then drop blank
lines. -/
def mergeTextLines (original_number : Str) (s_lines : List Str) : List Str :=
  (match s_lines with
   | s0 :: stail => if pyIsDigit s0 && s0 = original_number then stail else s_lines
   | [] => s_lines).filter (fun l => stripL l ≠ [])

/-- The chunk-pair loop of _merge_single_srt, carrying the running
output block counter.  The list returned holds one string per appended
srt_output entry. -/
def mergeChunkPieces : List (Str × Str) → ℕ → List Str
  | [], _ => []
  | (t_chunk, s_chunk) :: rest, counter =>
    if t_chunk = [] ∨ s_chunk = [] then
      mergeChunkPieces rest counter
    else
      match splitNl (stripL t_chunk), splitNl (stripL s_chunk) with
      | original_number :: time_line :: _, s_lines =>
        match mergeTextLines original_number s_lines with
        | [] => mergeChunkPieces rest counter
        | [line] =>
          (natLit counter ++ '\n' :: time_line ++ '\n' :: line ++ ['\n'])
            :: mergeChunkPieces rest (counter + 1)
        | line1 :: line2 :: more =>
          match splitArrow time_line with
          | [start_time_str, end_time_str] =>
            if sumLens (line1 :: line2 :: more) = 0 then
              mergeChunkPieces rest counter
            else
              (((proportionalSpans (_time_str_to_timedelta end_time_str)
                  (qSub (_time_str_to_timedelta end_time_str) (_time_str_to_timedelta start_time_str))
                  (sumLens (line1 :: line2 :: more)) (_time_str_to_timedelta start_time_str)
                  (line1 :: line2 :: more)).zip (line1 :: line2 :: more)).enum).map
                (fun x =>
                  natLit (counter + x.1) ++ '\n'
                    :: _timedelta_to_time_str x.2.1.1 ++ ' ' :: '-' :: '-' :: '>' :: ' '
                    :: _timedelta_to_time_str x.2.1.2 ++ '\n' :: x.2.2 ++ ['\n'])
                ++ mergeChunkPieces rest (counter + (line1 :: line2 :: more).length)
          | _ =>
            (natLit counter ++ '\n' :: time_line ++ '\n'
                :: joinNl (line1 :: line2 :: more) ++ ['\n'])
              :: mergeChunkPieces rest (counter + 1)
      | _, _ => mergeChunkPieces rest counter

/-- core._merge_single_srt on the two stream file contents, producing
the output SRT text. -/
def _merge_single_srt (time_content sentence_content : Str) : Str :=
  let time_chunks := splitNN (stripL time_content)
  let sentence_chunks := splitNN (stripL sentence_content)
  joinNl (mergeChunkPieces (time_chunks.zip sentence_chunks) 1)

/-! ### Character and digit lemmas -/

theorem not_space_of_isDigit {c : Char} (h : c.isDigit = true) : pyIsSpace c = false := by
  cases hc : pyIsSpace c
  · rfl
  · exfalso
    simp only [pyIsSpace, Bool.or_eq_true, decide_eq_true_eq] at hc
    rcases hc with ((((rfl | rfl) | rfl) | rfl) | rfl) | rfl <;> exact absurd h (by decide)

theorem ne_colon_of_isDigit {c : Char} (h : c.isDigit = true) : c ≠ ':' := by
  rintro rfl
  exact absurd h (by decide)

theorem ne_comma_of_isDigit {c : Char} (h : c.isDigit = true) : c ≠ ',' := by
  rintro rfl
  exact absurd h (by decide)

theorem ne_newline_of_isDigit {c : Char} (h : c.isDigit = true) : c ≠ '\n' := by
  rintro rfl
  exact absurd h (by decide)

theorem digitChar_isDigit {d : ℕ} (hd : d < 10) : (Nat.digitChar d).isDigit = true := by
  interval_cases d <;> decide

theorem digitVal_digitChar {d : ℕ} (hd : d < 10) : digitVal (Nat.digitChar d) = d := by
  interval_cases d <;> decide

theorem natLitAux_irrel : ∀ {f g n : ℕ}, n < f → n < g → natLitAux f n = natLitAux g n := by
  intro f
  induction f with
  | zero => omega
  | succ f ih =>
    intro g n hf hg
    cases g with
    | zero => omega
    | succ g =>
      simp only [natLitAux]
      split
      · rfl
      · rename_i hn
        have h1 : n / 10 < n := Nat.div_lt_self (by omega) (by omega)
        have h2 : natLitAux f (n / 10) = natLitAux g (n / 10) := ih (by omega) (by omega)
        rw [h2]

theorem natLit_eq (n : ℕ) :
    natLit n = if n < 10 then [Nat.digitChar n]
      else natLit (n / 10) ++ [Nat.digitChar (n % 10)] := by
  have e : natLit n = if n < 10 then [Nat.digitChar n]
      else natLitAux n (n / 10) ++ [Nat.digitChar (n % 10)] := rfl
  rw [e]
  split
  · rfl
  · rename_i hn
    have h1 : n / 10 < n := Nat.div_lt_self (by omega) (by omega)
    have h2 : natLitAux n (n / 10) = natLit (n / 10) := natLitAux_irrel (by omega) (by omega)
    rw [h2]

theorem natLit_digits {n : ℕ} : ∀ c ∈ natLit n, c.isDigit = true := by
  induction n using Nat.strong_induction_on with
  | _ n ih =>
    rw [natLit_eq]
    split
    · rename_i h10
      intro c hc
      rw [List.mem_singleton] at hc
      subst hc
      exact digitChar_isDigit (by omega)
    · rename_i h10
      intro c hc
      rw [List.mem_append] at hc
      rcases hc with hc | hc
      · exact ih (n / 10) (Nat.div_lt_self (by omega) (by omega)) c hc
      · rw [List.mem_singleton] at hc
        subst hc
        exact digitChar_isDigit (Nat.mod_lt _ (by omega))

theorem natLit_ne_nil {n : ℕ} : natLit n ≠ [] := by
  rw [natLit_eq]
  split
  · simp
  · simp

theorem pyIsDigit_natLit {n : ℕ} : pyIsDigit (natLit n) = true := by
  unfold pyIsDigit
  rw [Bool.and_eq_true]
  constructor
  · simp [List.isEmpty_iff, natLit_ne_nil]
  · rw [List.all_eq_true]
    intro c hc
    exact natLit_digits c hc

/-! ### Strip lemmas -/

theorem stripL_eq_self_all {s : Str} (h : ∀ c ∈ s, pyIsSpace c = false) : stripL s = s := by
  unfold stripL
  have h1 : s.dropWhile pyIsSpace = s := by
    cases s with
    | nil => rfl
    | cons a t =>
      rw [List.dropWhile_cons_of_neg]
      simp [h a (List.mem_cons_self a t)]
  rw [h1]
  have h2 : s.reverse.dropWhile pyIsSpace = s.reverse := by
    cases hr : s.reverse with
    | nil => rfl
    | cons a t =>
      rw [List.dropWhile_cons_of_neg]
      have ha : a ∈ s := by
        rw [← List.mem_reverse, hr]
        exact List.mem_cons_self a t
      simp [h a ha]
  rw [h2, List.reverse_reverse]

theorem replaceCommaDot_eq_self {s : Str} (h : ∀ c ∈ s, c.isDigit = true) :
    replaceCommaDot s = s := by
  unfold replaceCommaDot
  induction s with
  | nil => rfl
  | cons a t ih =>
    simp only [List.map_cons]
    rw [if_neg (ne_comma_of_isDigit (h a (List.mem_cons_self a t))),
      ih (fun c hc => h c (List.mem_cons_of_mem _ hc))]

/-! ### Timestamp texts with an out-of-range hour field (claim C4) -/

theorem fmtNat_digits {w n : ℕ} : ∀ c ∈ fmtNat w n, c.isDigit = true := by
  intro c hc
  unfold fmtNat at hc
  rw [List.mem_append] at hc
  rcases hc with hc | hc
  · rw [List.eq_of_mem_replicate hc]
    decide
  · exact natLit_digits c hc

theorem fmtNat_two {h : ℕ} (h10 : 10 ≤ h) (h100 : h < 100) :
    fmtNat 2 h = [Nat.digitChar (h / 10), Nat.digitChar (h % 10)] := by
  unfold fmtNat
  rw [natLit_eq, if_neg (by omega), natLit_eq, if_pos (by omega)]
  simp

/-- A timestamp text of the shape HH:MM:SS,mmm built from numeric
fields; used to quantify over all inputs of that shape. -/
def mkTs (h m s ms : ℕ) : Str :=
  fmtNat 2 h ++ ':' :: fmtNat 2 m ++ ':' :: fmtNat 2 s ++ ',' :: fmtNat 3 ms

theorem mkTs_not_space {h m s ms : ℕ} : ∀ c ∈ mkTs h m s ms, pyIsSpace c = false := by
  intro c hc
  unfold mkTs at hc
  simp only [List.mem_append, List.mem_cons] at hc
  rcases hc with ((hc | rfl | hc) | rfl | hc) | rfl | hc <;>
    first
      | decide
      | exact not_space_of_isDigit (fmtNat_digits c hc)

theorem replaceCommaDot_mkTs {h m s ms : ℕ} :
    replaceCommaDot (mkTs h m s ms) =
      fmtNat 2 h ++ ':' :: fmtNat 2 m ++ ':' :: fmtNat 2 s ++ '.' :: fmtNat 3 ms := by
  unfold mkTs replaceCommaDot
  rw [List.map_append, List.map_cons, List.map_append, List.map_cons, List.map_append,
    List.map_cons]
  rw [show ((if (':' : Char) = ',' then '.' else ':') = ':') from by decide,
    show ((if (',' : Char) = ',' then '.' else ',') = '.') from by decide]
  have e : ∀ t : Str, (∀ c ∈ t, c.isDigit = true) →
      t.map (fun c => if c = ',' then '.' else c) = t := fun t ht => replaceCommaDot_eq_self ht
  rw [e _ fmtNat_digits, e _ fmtNat_digits, e _ fmtNat_digits, e _ fmtNat_digits]

theorem parseField2_cons_cons {α : Type} (hi : ℕ) (k : ℕ → Str → Option α) (c1 c2 : Char)
    (rest : Str) :
    parseField2 hi k (c1 :: c2 :: rest) =
      match (if c1.isDigit && c2.isDigit && decide (10 * digitVal c1 + digitVal c2 ≤ hi) then
          k (10 * digitVal c1 + digitVal c2) rest else none) with
      | some v => some v
      | none => if c1.isDigit then k (digitVal c1) (c2 :: rest) else none := rfl

theorem strptimeHMSf_none_of_bad_hour {c1 c2 : Char} {rest : Str}
    (h1 : c1.isDigit = true) (h2 : c2.isDigit = true)
    (hval : ¬ 10 * digitVal c1 + digitVal c2 ≤ 23) :
    strptimeHMSf (c1 :: c2 :: rest) = none := by
  unfold strptimeHMSf
  rw [parseField2_cons_cons, if_neg (by simp [h1, h2, hval])]
  dsimp only
  rw [if_pos h1]
  split
  · rename_i r2 heq
    exact absurd (List.head_eq_of_cons_eq heq) (ne_colon_of_isDigit h2)
  · rfl

/-- C4 (counterexample): the timestamp 25:00:00,000, whose hour field
exceeds 23, is NOT parsed: shift_time_string takes the
unparseable-passthrough branch and _time_str_to_timedelta returns
zero, contradicting the claim that parsing succeeds for such inputs. -/
theorem hour25_passthrough :
    shift_time_string ("25:00:00,000").data 1 = some ("25:00:00,000").data ∧
    _time_str_to_timedelta ("25:00:00,000").data = 0 := by
  constructor
  · decide
  · decide

/-- C4 (amended): timestamp parsing bounds the hour field at 23.  For
every text of the shape HH:MM:SS,mmm whose two-digit hour field is 24
or more, strptime fails, so shift_time_string returns the text
unchanged for every offset and _time_str_to_timedelta returns zero. -/
theorem hour_field_capped_at_23 (h m s ms : ℕ) (off : ℚ)
    (hh : 24 ≤ h) (hh2 : h < 100) (hm : m < 100) (hs : s < 100) (hms : ms < 1000) :
    shift_time_string (mkTs h m s ms) off = some (mkTs h m s ms) ∧
    _time_str_to_timedelta (mkTs h m s ms) = 0 := by
  have hstrip : stripL (mkTs h m s ms) = mkTs h m s ms := stripL_eq_self_all mkTs_not_space
  have hd1 : (10 : ℕ) ≤ h := by omega
  have hdiv : h / 10 < 10 := by omega
  have hmod : h % 10 < 10 := Nat.mod_lt _ (by omega)
  have hnone : strptimeHMSf (replaceCommaDot (mkTs h m s ms)) = none := by
    rw [replaceCommaDot_mkTs, fmtNat_two hd1 hh2]
    simp only [List.append_assoc, List.cons_append, List.nil_append]
    apply strptimeHMSf_none_of_bad_hour (digitChar_isDigit hdiv) (digitChar_isDigit hmod)
    rw [digitVal_digitChar hdiv, digitVal_digitChar hmod]
    omega
  constructor
  · unfold shift_time_string
    rw [hstrip, hnone]
  · unfold _time_str_to_timedelta
    rw [hstrip, hnone]

/-- C4 (witness): the amended theorem applied at 25:00:00,000. -/
theorem hour_field_capped_at_23_witness :
    mkTs 25 0 0 0 = ("25:00:00,000").data ∧
    shift_time_string (mkTs 25 0 0 0) 1 = some (mkTs 25 0 0 0) ∧
    _time_str_to_timedelta (mkTs 25 0 0 0) = 0 :=
  ⟨by decide,
    hour_field_capped_at_23 25 0 0 0 1 (by decide) (by decide) (by decide) (by decide) (by decide)⟩

/-- C5 (counterexample): shifting the dot-separated timestamp
00:01:00.000 by a large negative offset clamps to 00:00:00.000, not to
the comma form 00:00:00,000 the claim promises for every parsable
input. -/
theorem dot_separator_clamp_counterexample :
    shift_time_string ("00:01:00.000").data (-3600) = some ("00:00:00.000").data ∧
    shift_time_string ("00:01:00.000").data (-3600) ≠ some ("00:00:00,000").data := by
  constructor
  · decide
  · decide

/-- C5 (amended): shift_time_string never emits a negative timestamp:
whenever parsing succeeds and the shifted instant would reach or go
below the zero datetime, then as long as the instant stays inside the
supported datetime range (not before year 1) the result is the zero
timestamp rendered with the input's own millisecond separator (comma
when the input contains a comma, dot otherwise); when the shift goes
below the range, the addition — outside the try block — raises an
uncaught OverflowError rather than returning a clamped value. -/
theorem shift_clamps_at_zero (t : Str) (off : ℚ) (h m s us : ℕ)
    (hp : strptimeHMSf (replaceCommaDot (stripL t)) = some (h, m, s, us))
    (hneg : (usOfHMSf h m s us : ℤ) + rndHalfEven (qMul off (qNat 1000000)) ≤ 0) :
    shift_time_string t off =
      (if dtMinUs ≤ (usOfHMSf h m s us : ℤ) + rndHalfEven (qMul off (qNat 1000000)) then
        some (if t.contains ',' then ("00:00:00,000").data else ("00:00:00.000").data)
      else none) := by
  unfold shift_time_string
  rw [hp]
  dsimp only
  by_cases hr : dtMinUs ≤ (usOfHMSf h m s us : ℤ) + rndHalfEven (qMul off (qNat 1000000))
  · rw [if_pos hr]
    rw [if_neg (by unfold dtMinUs dtMaxUs at *; omega)]
    have hz : (if (usOfHMSf h m s us : ℤ) + rndHalfEven (qMul off (qNat 1000000)) < 0 then (0 : ℤ)
        else (usOfHMSf h m s us : ℤ) + rndHalfEven (qMul off (qNat 1000000))) = 0 := by
      split <;> omega
    rw [hz]
    have h1 : strftimeMs 0 = ("00:00:00.000").data := by decide
    rw [h1]
    cases hc : t.contains ','
    · simp
    · simp
      decide
  · rw [if_neg hr]
    rw [if_pos (Or.inl (by omega))]

/-- C5 (witness): a comma input whose shifted instant is at or below
zero but inside the datetime range is clamped to the zero timestamp,
while an offset pushing the same input before year 1 hits the uncaught
OverflowError path. -/
theorem shift_clamps_at_zero_witness :
    shift_time_string ("00:01:00,000").data (-3600) = some ("00:00:00,000").data ∧
    shift_time_string ("00:01:00,000").data (-100000000000) = none := by
  constructor
  · have h := shift_clamps_at_zero ("00:01:00,000").data (-3600) 0 1 0 0 (by decide) (by decide)
    rw [if_pos (by decide), if_pos (by decide)] at h
    exact h
  · have h := shift_clamps_at_zero ("00:01:00,000").data (-100000000000) 0 1 0 0
      (by decide) (by decide)
    rw [if_neg (by decide)] at h
    exact h

/-- C9 (counterexample): an unparseable timestamp with surrounding
whitespace is returned stripped, not identical to the input. -/
theorem unparseable_strip_counterexample :
    shift_time_string (" abc ").data 0 = some ("abc").data ∧
    shift_time_string (" abc ").data 0 ≠ some (" abc ").data := by
  constructor
  · decide
  · decide

/-- C9 (amended): for every timestamp text that strptime rejects and
every offset, shift_time_string returns the input with its surrounding
whitespace stripped and is otherwise unchanged (a failure passthrough,
not a hard error). -/
theorem unparseable_passthrough_stripped (t : Str) (off : ℚ)
    (hp : strptimeHMSf (replaceCommaDot (stripL t)) = none) :
    shift_time_string t off = some (stripL t) := by
  unfold shift_time_string
  rw [hp]

/-- C9 (witness): the amended theorem applied at a concrete
unparseable input. -/
theorem unparseable_passthrough_stripped_witness :
    shift_time_string (" abc ").data 7 = some (stripL (" abc ").data) :=
  unparseable_passthrough_stripped _ _ (by decide)

/-! ### Claim C6: the blank-line format check -/

/-- The condition the format check tests at adjacent line pair j,
j + 1: line j + 1 is purely numeric after stripping while line j is
not blank. -/
def formatViolAt (lines : List Str) (j : ℕ) : Bool :=
  pyIsDigit (stripL (lines.getD (j + 1) [])) && !(stripL (lines.getD j [])).isEmpty

theorem firstFormatViolation_spec : ∀ (ls : List Str) (k : ℕ),
    (firstFormatViolation ls k = none ↔ ∀ j, j + 1 < ls.length → formatViolAt ls j = false) ∧
    (∀ v, firstFormatViolation ls k = some v →
      ∃ j, v = k + j ∧ j + 1 < ls.length ∧ formatViolAt ls j = true ∧
        ∀ l, l < j → formatViolAt ls l = false) := by
  intro ls
  induction ls with
  | nil =>
    intro k
    refine ⟨?_, ?_⟩
    · simp [firstFormatViolation]
    · intro v hv
      simp [firstFormatViolation] at hv
  | cons prev tail ih =>
    cases tail with
    | nil =>
      intro k
      refine ⟨?_, ?_⟩
      · simp only [firstFormatViolation]
        simp only [List.length_cons, List.length_nil, true_iff]
        omega
      · intro v hv
        simp [firstFormatViolation] at hv
    | cons cur rest =>
      intro k
      have hviol0 : formatViolAt (prev :: cur :: rest) 0
          = (pyIsDigit (stripL cur) && !(stripL prev).isEmpty) := rfl
      have hviolS : ∀ j, formatViolAt (prev :: cur :: rest) (j + 1)
          = formatViolAt (cur :: rest) j := fun j => rfl
      have hffv : firstFormatViolation (prev :: cur :: rest) k
          = if pyIsDigit (stripL cur) && !(stripL prev).isEmpty then some k
            else firstFormatViolation (cur :: rest) (k + 1) := rfl
      constructor
      · rw [hffv]
        split
        · rename_i hc
          constructor
          · intro h
            exact absurd h (by simp)
          · intro hall
            have h0 := hall 0 (by simp)
            rw [hviol0, hc] at h0
            exact absurd h0 (by simp)
        · rename_i hc
          rw [(ih (k + 1)).1]
          constructor
          · intro hall j hj
            cases j with
            | zero =>
              rw [hviol0]
              exact Bool.not_eq_true _ |>.mp hc
            | succ j =>
              rw [hviolS]
              exact hall j (by simpa using Nat.lt_of_succ_lt_succ (by simpa using hj))
          · intro hall j hj
            rw [← hviolS]
            exact hall (j + 1) (by simpa using Nat.succ_lt_succ (by simpa using hj))
      · rw [hffv]
        split
        · rename_i hc
          intro v hv
          refine ⟨0, by simpa using hv.symm, by simp, by rw [hviol0]; exact hc, ?_⟩
          intro l hl
          omega
        · rename_i hc
          intro v hv
          obtain ⟨j, hj1, hj2, hj3, hj4⟩ := (ih (k + 1)).2 v hv
          refine ⟨j + 1, by omega, by simpa using Nat.succ_lt_succ (by simpa using hj2),
            by rw [hviolS]; exact hj3, ?_⟩
          intro l hl
          cases l with
          | zero =>
            rw [hviol0]
            exact Bool.not_eq_true _ |>.mp hc
          | succ l =>
            rw [hviolS]
            exact hj4 l (by omega)

/-- C6: the format check accepts an input exactly when every stripped
purely numeric line at position i, i at least 1, is preceded by a
blank line; on the first violation it returns Invalid with that line's
index; the input 1/hello/2/world with no blank line before the 2 is
rejected with index 2 (the position of the 2 line), while
1/hello/blank/2/world passes. -/
theorem format_check_spec :
    (∀ content : Str,
      ((_validate_translation_format content).1 = true ↔
        ∀ i, 1 ≤ i → i < (splitNl (stripL content)).length →
          pyIsDigit (stripL ((splitNl (stripL content)).getD i [])) = true →
          stripL ((splitNl (stripL content)).getD (i - 1) []) = []) ∧
      ((_validate_translation_format content).1 = false →
        ∃ i : ℕ, (_validate_translation_format content).2 = (i : ℤ) ∧ 1 ≤ i ∧
          i < (splitNl (stripL content)).length ∧
          pyIsDigit (stripL ((splitNl (stripL content)).getD i [])) = true ∧
          stripL ((splitNl (stripL content)).getD (i - 1) []) ≠ [] ∧
          ∀ l, 1 ≤ l → l < i →
            ¬(pyIsDigit (stripL ((splitNl (stripL content)).getD l [])) = true ∧
              stripL ((splitNl (stripL content)).getD (l - 1) []) ≠ []))) ∧
    _validate_translation_format ("1\nhello\n2\nworld").data = (false, 2) ∧
    _validate_translation_format ("1\nhello\n\n2\nworld").data = (true, -1) := by
  refine ⟨?_, by decide, by decide⟩
  intro content
  set lines := splitNl (stripL content) with hlines
  have hviol : ∀ j, formatViolAt lines j = false ↔
      (pyIsDigit (stripL (lines.getD (j + 1) [])) = true →
        stripL (lines.getD j []) = []) := by
    intro j
    unfold formatViolAt
    cases hd : pyIsDigit (stripL (lines.getD (j + 1) [])) <;>
      cases he : (stripL (lines.getD j [])).isEmpty <;>
        simp_all [List.isEmpty_iff]
  constructor
  · unfold _validate_translation_format
    rw [← hlines]
    split
    · rename_i hlen
      simp only [true_iff]
      intro i hi1 hi2
      omega
    · rename_i hlen
      cases hf : firstFormatViolation lines 1 with
      | none =>
        simp only [true_iff]
        have hall := (firstFormatViolation_spec lines 1).1.mp hf
        intro i hi1 hi2 hdig
        obtain ⟨j, rfl⟩ : ∃ j, i = j + 1 := ⟨i - 1, by omega⟩
        have := (hviol j).mp (hall j (by omega))
        simpa using this hdig
      | some v =>
        dsimp only
        constructor
        · intro h
          exact absurd h (by simp)
        · intro hall
          exfalso
          obtain ⟨j, hv1, hj2, hj3, _⟩ := (firstFormatViolation_spec lines 1).2 v hf
          unfold formatViolAt at hj3
          rw [Bool.and_eq_true] at hj3
          have hblank := hall (j + 1) (by omega) (by omega) (by simpa using hj3.1)
          simp only [Nat.add_sub_cancel] at hblank
          have h2 := hj3.2
          rw [hblank] at h2
          exact absurd h2 (by simp)
  · unfold _validate_translation_format
    rw [← hlines]
    split
    · rename_i hlen
      intro h
      exact absurd h (by simp)
    · rename_i hlen
      cases hf : firstFormatViolation lines 1 with
      | none =>
        intro h
        exact absurd h (by simp)
      | some v =>
        intro _
        obtain ⟨j, hv1, hj2, hj3, hj4⟩ := (firstFormatViolation_spec lines 1).2 v hf
        unfold formatViolAt at hj3
        rw [Bool.and_eq_true] at hj3
        refine ⟨j + 1, ?_, by omega, by omega, by simpa using hj3.1, ?_, ?_⟩
        · simp only [hv1]
          push_cast
          ring
        · simpa [List.isEmpty_iff] using hj3.2
        · intro l hl1 hl2
          obtain ⟨l0, rfl⟩ : ∃ l0, l = l0 + 1 := ⟨l - 1, by omega⟩
          have := hj4 l0 (by omega)
          unfold formatViolAt at this
          simp only [Nat.add_sub_cancel]
          intro hcontra
          rcases hcontra with ⟨h1, h2⟩
          rw [h1] at this
          simp only [Bool.true_and] at this
          have h3 : (stripL (lines.getD l0 [])).isEmpty = true := by
            cases hx : (stripL (lines.getD l0 [])).isEmpty
            · rw [hx] at this
              exact absurd this (by simp)
            · rfl
          rw [List.isEmpty_iff] at h3
          exact h2 h3

/-- C6 (witness): the two concrete validator examples, extracted from
the claim theorem. -/
theorem format_check_spec_witness :
    _validate_translation_format ("1\nhello\n2\nworld").data = (false, 2) ∧
    _validate_translation_format ("1\nhello\n\n2\nworld").data = (true, -1) :=
  ⟨format_check_spec.2.1, format_check_spec.2.2⟩

/-! ### Claim C7: the sequential-numbering check -/

theorem seqLoop_spec : ∀ (bs : List SrtBlock) (e : ℤ),
    ((seqLoop bs e).1 = true ↔
      ∀ j, j < bs.length → (bs.map (fun b => pyInt b.number)).getD j none = some (e + j)) ∧
    ((seqLoop bs e).1 = false →
      ∃ j, j < bs.length ∧ (seqLoop bs e).2 = e + j ∧
        (bs.map (fun b => pyInt b.number)).getD j none ≠ some (e + j) ∧
        ∀ l, l < j → (bs.map (fun b => pyInt b.number)).getD l none = some (e + l)) := by
  intro bs
  induction bs with
  | nil =>
    intro e
    constructor
    · simp [seqLoop]
    · intro h
      simp [seqLoop] at h
  | cons b rest ih =>
    intro e
    have hmap0 : ((b :: rest).map (fun b => pyInt b.number)).getD 0 none = pyInt b.number := rfl
    have hmapS : ∀ j, ((b :: rest).map (fun b => pyInt b.number)).getD (j + 1) none
        = (rest.map (fun b => pyInt b.number)).getD j none := fun j => rfl
    cases hp : pyInt b.number with
    | none =>
      have hs : seqLoop (b :: rest) e = (false, e) := by
        simp [seqLoop, hp]
      rw [hs]
      constructor
      · constructor
        · intro h
          exact absurd h (by simp)
        · intro hall
          have h0 := hall 0 (by simp)
          rw [hmap0, hp] at h0
          exact absurd h0 (by simp)
      · intro _
        refine ⟨0, by simp, by simp, ?_, ?_⟩
        · rw [hmap0, hp]
          simp
        · intro l hl
          exact absurd hl (by omega)
    | some n =>
      by_cases hn : n = e
      · subst hn
        have hs : seqLoop (b :: rest) n = seqLoop rest (n + 1) := by
          simp [seqLoop, hp]
        rw [hs]
        constructor
        · rw [(ih (n + 1)).1]
          constructor
          · intro hall j hj
            cases j with
            | zero =>
              rw [hmap0, hp]
              norm_num
            | succ j =>
              rw [hmapS]
              rw [hall j (by simpa using hj)]
              congr 1
              push_cast
              ring
          · intro hall j hj
            have := hall (j + 1) (by simpa using hj)
            rw [hmapS] at this
            rw [this]
            congr 1
            push_cast
            ring
        · intro hfalse
          obtain ⟨j, hj1, hj2, hj3, hj4⟩ := (ih (n + 1)).2 hfalse
          refine ⟨j + 1, by simpa using hj1, ?_, ?_, ?_⟩
          · rw [hj2]
            push_cast
            ring
          · rw [hmapS]
            intro hcon
            apply hj3
            rw [hcon]
            congr 1
            push_cast
            ring
          · intro l hl
            cases l with
            | zero =>
              rw [hmap0, hp]
              norm_num
            | succ l =>
              rw [hmapS]
              rw [hj4 l (by omega)]
              congr 1
              push_cast
              ring
      · have hs : seqLoop (b :: rest) e = (false, e) := by
          simp [seqLoop, hp, hn]
        rw [hs]
        constructor
        · constructor
          · intro h
            exact absurd h (by simp)
          · intro hall
            have h0 := hall 0 (by simp)
            rw [hmap0, hp] at h0
            simp only [Option.some.injEq] at h0
            exact (hn (by simpa using h0)).elim
        · intro _
          refine ⟨0, by simp, by simp, ?_, ?_⟩
          · rw [hmap0, hp]
            simp only [ne_eq, Option.some.injEq]
            intro hcon
            exact hn (by simpa using hcon)
          · intro l hl
            exact absurd hl (by omega)

/-- C7: the sequential-numbering check re-parses the candidate text
with the block parser and accepts exactly when the parsed blocks'
numeric index values are 1, 2, 3, ... in order with no gaps or
repeats; at the first violation it returns Invalid carrying the
expected index; a text parsing to indices 1, 2, 4 is rejected with
expected index 3 and one parsing to 1, 2, 3 passes. -/
theorem sequential_check_spec :
    (∀ content : Str,
      ((_validate_sequential_numbering content).1 = true ↔
        ∀ j, j < (parse_srt_content content).length →
          ((parse_srt_content content).map (fun b => pyInt b.number)).getD j none
            = some ((j : ℤ) + 1)) ∧
      ((_validate_sequential_numbering content).1 = false →
        ∃ j, j < (parse_srt_content content).length ∧
          (_validate_sequential_numbering content).2 = (j : ℤ) + 1 ∧
          ((parse_srt_content content).map (fun b => pyInt b.number)).getD j none
            ≠ some ((j : ℤ) + 1) ∧
          ∀ l, l < j →
            ((parse_srt_content content).map (fun b => pyInt b.number)).getD l none
              = some ((l : ℤ) + 1))) ∧
    _validate_sequential_numbering
      ("1\n00:00:01,000 --> 00:00:02,000\na\n\n2\n00:00:02,000 --> 00:00:03,000\nb\n\n4\n00:00:03,000 --> 00:00:04,000\nc").data
      = (false, 3) ∧
    _validate_sequential_numbering
      ("1\n00:00:01,000 --> 00:00:02,000\na\n\n2\n00:00:02,000 --> 00:00:03,000\nb\n\n3\n00:00:03,000 --> 00:00:04,000\nc").data
      = (true, -1) := by
  refine ⟨?_, by decide, by decide⟩
  intro content
  have h := seqLoop_spec (parse_srt_content content) 1
  unfold _validate_sequential_numbering
  constructor
  · rw [h.1]
    constructor
    · intro hall j hj
      rw [hall j hj]
      congr 1
      ring
    · intro hall j hj
      rw [hall j hj]
      congr 1
      ring
  · intro hfalse
    obtain ⟨j, h1, h2, h3, h4⟩ := h.2 hfalse
    refine ⟨j, h1, by rw [h2]; ring, ?_, ?_⟩
    · rw [show ((j : ℤ) + 1) = 1 + (j : ℤ) from by ring]
      exact h3
    · intro l hl
      rw [h4 l hl]
      congr 1
      ring

/-- C7 (witness): the two concrete sequential-check examples,
extracted from the claim theorem. -/
theorem sequential_check_spec_witness :
    _validate_sequential_numbering
      ("1\n00:00:01,000 --> 00:00:02,000\na\n\n2\n00:00:02,000 --> 00:00:03,000\nb\n\n4\n00:00:03,000 --> 00:00:04,000\nc").data
      = (false, 3) ∧
    _validate_sequential_numbering
      ("1\n00:00:01,000 --> 00:00:02,000\na\n\n2\n00:00:02,000 --> 00:00:03,000\nb\n\n3\n00:00:03,000 --> 00:00:04,000\nc").data
      = (true, -1) :=
  ⟨sequential_check_spec.2.1, sequential_check_spec.2.2⟩

/-! ### Claim C8: the sequential check is blind to sentence-stream text -/

theorem findAnchor_none {ls : List Str} (h : ∀ l ∈ ls, timeSearch l = false) :
    findAnchor ls = none := by
  induction ls with
  | nil => rfl
  | cons l ls ih =>
    have hl := h l (List.mem_cons_self l ls)
    have hrest := ih (fun x hx => h x (List.mem_cons_of_mem _ hx))
    simp [findAnchor, hl, hrest]

theorem parseChunks_nil_of_no_time {chunks : List Str} {k : ℕ}
    (h : ∀ chunk ∈ chunks, ∀ line ∈ splitNl (stripL chunk), timeSearch line = false) :
    parseChunks chunks k = [] := by
  induction chunks generalizing k with
  | nil => rfl
  | cons chunk rest ih =>
    have hrest : parseChunks rest k = [] := ih (fun c hc => h c (List.mem_cons_of_mem _ hc))
    have hanchor := findAnchor_none (h chunk (List.mem_cons_self _ _))
    cases hsp : splitNl (stripL chunk) with
    | nil =>
      simp only [parseChunks, hsp]
      exact hrest
    | cons l0 ltail =>
      rw [hsp] at hanchor
      simp only [parseChunks, hsp]
      by_cases hl0 : l0 = []
      · rw [if_pos hl0]
        exact hrest
      · rw [if_neg hl0, hanchor]
        exact hrest

/-- C8: for every input text none of whose chunk lines matches the
time-range pattern — in particular a sentence-stream text made of
index-and-text chunks — the block parser yields zero blocks, so the
sequential-numbering check returns Valid; it therefore cannot detect
dropped, duplicated or reordered cues in sentence-stream content. -/
theorem sequential_check_blind_to_sentence_text (content : Str)
    (h : ∀ chunk ∈ splitNN (stripL content), ∀ line ∈ splitNl (stripL chunk),
      timeSearch line = false) :
    parse_srt_content content = [] ∧
    _validate_sequential_numbering content = (true, -1) := by
  have hp : parse_srt_content content = [] := parseChunks_nil_of_no_time h
  refine ⟨hp, ?_⟩
  unfold _validate_sequential_numbering
  rw [hp]
  rfl

/-- C8 (witness): a concrete translated sentence-stream text is
declared Valid and parses to zero blocks. -/
theorem sequential_check_blind_to_sentence_text_witness :
    parse_srt_content ("1\nHello there\n\n2\nGoodbye now").data = [] ∧
    _validate_sequential_numbering ("1\nHello there\n\n2\nGoodbye now").data = (true, -1) :=
  sequential_check_blind_to_sentence_text _ (by decide)

/-! ### Claim C3: proportional subdivision of a time range -/

theorem proportionalSpans_spec (e d : ℚ) (t : ℕ) :
    ∀ (lines : List Str) (cur : ℚ), lines ≠ [] →
      (proportionalSpans e d t cur lines).length = lines.length ∧
      ((proportionalSpans e d t cur lines).getD 0 (0, 0)).1 = cur ∧
      (∀ i, i + 1 < lines.length →
        ((proportionalSpans e d t cur lines).getD (i + 1) (0, 0)).1
          = ((proportionalSpans e d t cur lines).getD i (0, 0)).2) ∧
      (∀ i, i + 1 < lines.length →
        ((proportionalSpans e d t cur lines).getD i (0, 0)).2
          = ((proportionalSpans e d t cur lines).getD i (0, 0)).1
            + ((lines.getD i []).length : ℚ) / (t : ℚ) * d) ∧
      ((proportionalSpans e d t cur lines).getD (lines.length - 1) (0, 0)).2 = e := by
  intro lines
  induction lines with
  | nil =>
    intro cur h
    exact absurd rfl h
  | cons x tail ih =>
    intro cur hne
    cases tail with
    | nil =>
      refine ⟨rfl, rfl, ?_, ?_, rfl⟩
      · intro i hi
        exact absurd hi (by simp)
      · intro i hi
        exact absurd hi (by simp)
    | cons y rest =>
      have hs : proportionalSpans e d t cur (x :: y :: rest)
          = (cur, qAdd cur (qMul d (qDiv (qNat x.length) (qNat t))))
            :: proportionalSpans e d t (qAdd cur (qMul d (qDiv (qNat x.length) (qNat t))))
              (y :: rest) := rfl
      obtain ⟨ih1, ih2, ih3, ih4, ih5⟩ :=
        ih (qAdd cur (qMul d (qDiv (qNat x.length) (qNat t)))) (by simp)
      rw [hs]
      refine ⟨by simp [ih1], rfl, ?_, ?_, ?_⟩
      · intro i hi
        cases i with
        | zero =>
          simp only [List.getD_cons_succ, List.getD_cons_zero]
          rw [ih2]
        | succ i =>
          simp only [List.getD_cons_succ]
          exact ih3 i (by simpa using hi)
      · intro i hi
        cases i with
        | zero =>
          simp only [List.getD_cons_zero]
          rw [qAdd_eq, qMul_eq, qDiv_eq, qNat_eq, qNat_eq]
          ring
        | succ i =>
          simp only [List.getD_cons_succ]
          exact ih4 i (by simpa using hi)
      · have hlen : (x :: y :: rest : List Str).length - 1 = rest.length + 1 := by simp
        rw [hlen]
        simp only [List.getD_cons_succ]
        have hlen2 : (y :: rest : List Str).length - 1 = rest.length := by simp
        rw [← hlen2]
        exact ih5

/-- C3: when the Merger proportionally subdivides a multi-line chunk
with time range from S to E, the emitted spans partition the range in
line order: there is one span per line, the first starts at S, each
later span starts where the previous one ended, every non-final span
ends at its start plus the line's character-length weight times E - S,
and the final span ends exactly at E; concretely, merging the chunk
00:00:00,000 --> 00:00:10,000 with two text lines of lengths 3 and 7
emits sub-blocks 00:00:00,000 --> 00:00:03,000 and
00:00:03,000 --> 00:00:10,000. -/
theorem proportional_split_spec :
    (∀ (S E : ℚ) (lines : List Str), lines ≠ [] →
      (proportionalSpans E (qSub E S) (sumLens lines) S lines).length = lines.length ∧
      ((proportionalSpans E (qSub E S) (sumLens lines) S lines).getD 0 (0, 0)).1 = S ∧
      (∀ i, i + 1 < lines.length →
        ((proportionalSpans E (qSub E S) (sumLens lines) S lines).getD (i + 1) (0, 0)).1
          = ((proportionalSpans E (qSub E S) (sumLens lines) S lines).getD i (0, 0)).2) ∧
      (∀ i, i + 1 < lines.length →
        ((proportionalSpans E (qSub E S) (sumLens lines) S lines).getD i (0, 0)).2
          = ((proportionalSpans E (qSub E S) (sumLens lines) S lines).getD i (0, 0)).1
            + ((lines.getD i []).length : ℚ) / (sumLens lines : ℚ) * (E - S)) ∧
      ((proportionalSpans E (qSub E S) (sumLens lines) S lines).getD
        (lines.length - 1) (0, 0)).2 = E) ∧
    _merge_single_srt ("1\n00:00:00,000 --> 00:00:10,000\n\n").data ("1\nabc\nabcdefg\n\n").data
      = ("1\n00:00:00,000 --> 00:00:03,000\nabc\n\n2\n00:00:03,000 --> 00:00:10,000\nabcdefg\n").data := by
  refine ⟨?_, by decide⟩
  intro S E lines hne
  have h := proportionalSpans_spec E (qSub E S) (sumLens lines) lines S hne
  rw [show (E - S : ℚ) = qSub E S from (qSub_eq E S).symm]
  exact h

/-- C3 (witness): the abstract span theorem applied at the concrete
two-line example, giving the forced exact end at E = 10 seconds. -/
theorem proportional_split_spec_witness :
    ((proportionalSpans 10 (qSub 10 0) (sumLens [("abc").data, ("abcdefg").data]) 0
      [("abc").data, ("abcdefg").data]).getD
        ([("abc").data, ("abcdefg").data].length - 1) (0, 0)).2 = 10 :=
  (proportional_split_spec.1 0 10 [("abc").data, ("abcdefg").data] (by decide)).2.2.2.2

/-! ### Claim C10: subdivided chunks are formatted with a comma separator -/

theorem mem_fmtInt {w : ℕ} {z : ℤ} {c : Char} (hc : c ∈ fmtInt w z) :
    c.isDigit = true ∨ c = '-' := by
  unfold fmtInt at hc
  split at hc
  · rw [List.mem_cons] at hc
    rcases hc with rfl | hc
    · exact Or.inr rfl
    · exact Or.inl (fmtNat_digits c hc)
  · exact Or.inl (fmtNat_digits c hc)

theorem not_dot_mem_fmtInt {w : ℕ} {z : ℤ} : '.' ∉ fmtInt w z := by
  intro hc
  rcases mem_fmtInt hc with hd | hd <;> exact absurd hd (by decide)

theorem tdToStr_comma_no_dot (q : ℚ) :
    ',' ∈ _timedelta_to_time_str q ∧ '.' ∉ _timedelta_to_time_str q := by
  constructor
  · unfold _timedelta_to_time_str
    refine List.mem_append_right _ ?_
    exact List.mem_cons_self _ _
  · intro hc
    unfold _timedelta_to_time_str at hc
    dsimp only at hc
    rcases List.mem_append.1 hc with h1 | h1
    · rcases List.mem_append.1 h1 with h2 | h2
      · rcases List.mem_append.1 h2 with h3 | h3
        · exact absurd h3 not_dot_mem_fmtInt
        · rcases List.mem_cons.1 h3 with h4 | h4
          · exact absurd h4 (by decide)
          · exact absurd h4 not_dot_mem_fmtInt
      · rcases List.mem_cons.1 h2 with h3 | h3
        · exact absurd h3 (by decide)
        · exact absurd h3 not_dot_mem_fmtInt
    · rcases List.mem_cons.1 h1 with h2 | h2
      · exact absurd h2 (by decide)
      · exact absurd h2 not_dot_mem_fmtInt

/-- C10: whenever the Merger proportionally subdivides a multi-line
chunk, every emitted start and end timestamp is produced by
_timedelta_to_time_str, whose output always contains a comma and never
a dot, regardless of the source time range's separator; only a chunk
whose text reduces to exactly one line keeps its original time-range
line verbatim. -/
theorem merger_subdivision_comma_format :
    (∀ q : ℚ, ',' ∈ _timedelta_to_time_str q ∧ '.' ∉ _timedelta_to_time_str q) ∧
    (∀ (t_chunk s_chunk : Str) (rest : List (Str × Str)) (k : ℕ)
      (orig time_line : Str) (tl : List Str) (l1 l2 : Str) (ls : List Str) (a b : Str),
      t_chunk ≠ [] → s_chunk ≠ [] →
      splitNl (stripL t_chunk) = orig :: time_line :: tl →
      mergeTextLines orig (splitNl (stripL s_chunk)) = l1 :: l2 :: ls →
      splitArrow time_line = [a, b] →
      sumLens (l1 :: l2 :: ls) ≠ 0 →
      mergeChunkPieces ((t_chunk, s_chunk) :: rest) k
        = (((proportionalSpans (_time_str_to_timedelta b)
              (qSub (_time_str_to_timedelta b) (_time_str_to_timedelta a))
              (sumLens (l1 :: l2 :: ls)) (_time_str_to_timedelta a)
              (l1 :: l2 :: ls)).zip (l1 :: l2 :: ls)).enum.map
            (fun x =>
              natLit (k + x.1) ++ '\n'
                :: _timedelta_to_time_str x.2.1.1 ++ ' ' :: '-' :: '-' :: '>' :: ' '
                :: _timedelta_to_time_str x.2.1.2 ++ '\n' :: x.2.2 ++ ['\n'])
          ++ mergeChunkPieces rest (k + (l1 :: l2 :: ls).length))) ∧
    (∀ (t_chunk s_chunk : Str) (rest : List (Str × Str)) (k : ℕ)
      (orig time_line : Str) (tl : List Str) (line : Str),
      t_chunk ≠ [] → s_chunk ≠ [] →
      splitNl (stripL t_chunk) = orig :: time_line :: tl →
      mergeTextLines orig (splitNl (stripL s_chunk)) = [line] →
      mergeChunkPieces ((t_chunk, s_chunk) :: rest) k
        = (natLit k ++ '\n' :: time_line ++ '\n' :: line ++ ['\n'])
          :: mergeChunkPieces rest (k + 1)) := by
  refine ⟨tdToStr_comma_no_dot, ?_, ?_⟩
  · intro t_chunk s_chunk rest k orig time_line tl l1 l2 ls a b ht hs hsplitT hm harrow htot
    simp only [mergeChunkPieces, hsplitT, hm, harrow]
    simp [ht, hs, htot]
  · intro t_chunk s_chunk rest k orig time_line tl line ht hs hsplitT hm
    simp only [mergeChunkPieces, hsplitT, hm]
    simp [ht, hs]

/-- C10 (witness): the subdivision branch applied to a concrete
dot-separated chunk; combined with the comma conjunct the emitted
timestamps carry commas. -/
theorem merger_subdivision_comma_format_witness :
    mergeChunkPieces [(("1\n00:00:00.000 --> 00:00:10.000").data, ("1\nabc\nabcdefg").data)] 1
      = (((proportionalSpans (_time_str_to_timedelta ("00:00:10.000").data)
            (qSub (_time_str_to_timedelta ("00:00:10.000").data)
              (_time_str_to_timedelta ("00:00:00.000").data))
            (sumLens [("abc").data, ("abcdefg").data])
            (_time_str_to_timedelta ("00:00:00.000").data)
            [("abc").data, ("abcdefg").data]).zip
            [("abc").data, ("abcdefg").data]).enum.map
          (fun x =>
            natLit (1 + x.1) ++ '\n'
              :: _timedelta_to_time_str x.2.1.1 ++ ' ' :: '-' :: '-' :: '>' :: ' '
              :: _timedelta_to_time_str x.2.1.2 ++ '\n' :: x.2.2 ++ ['\n'])
        ++ mergeChunkPieces [] (1 + [("abc").data, ("abcdefg").data].length)) := by
  have h := merger_subdivision_comma_format.2.1
    ("1\n00:00:00.000 --> 00:00:10.000").data ("1\nabc\nabcdefg").data [] 1
    ("1").data ("00:00:00.000 --> 00:00:10.000").data []
    ("abc").data ("abcdefg").data [] ("00:00:00.000").data ("00:00:10.000").data
    (by decide) (by decide) (by decide) (by decide) (by decide) (by decide)
  exact h

/-! ### Claim C2: chunk counts of the split streams

Toolkit for the stream/chunk analysis: containment of the two-newline
separator, newline-freeness, and non-whitespace boundary tests. -/

/-- Whether a string contains the two-newline separator. -/
def hasNN : Str → Bool
  | [] => false
  | [_] => false
  | a :: b :: r => (decide (a = '\n') && decide (b = '\n')) || hasNN (b :: r)

/-- Whether a string starts with a newline. -/
def headIsNL : Str → Bool
  | [] => false
  | c :: _ => decide (c = '\n')

/-- Whether a string contains no newline at all. -/
def noNL (s : Str) : Bool := s.all fun c => !decide (c = '\n')

/-- Whether a string is empty or starts with a non-whitespace char. -/
def headNW : Str → Bool
  | [] => true
  | c :: _ => !pyIsSpace c

/-- Whether a string is empty or ends with a non-whitespace char. -/
def lastNW (s : Str) : Bool := headNW s.reverse

theorem hasNN_cons (c : Char) (s : Str) :
    hasNN (c :: s) = ((decide (c = '\n') && headIsNL s) || hasNN s) := by
  cases s with
  | nil => simp [hasNN, headIsNL]
  | cons b r => rfl

theorem headIsNL_append (a b : Str) (ha : a ≠ []) : headIsNL (a ++ b) = headIsNL a := by
  cases a with
  | nil => exact absurd rfl ha
  | cons c t => rfl

theorem hasNN_append_right {a b : Str} (h : hasNN (a ++ b) = false) : hasNN b = false := by
  induction a with
  | nil => exact h
  | cons c t ih =>
    rw [List.cons_append, hasNN_cons] at h
    exact ih (Bool.or_eq_false_iff.1 h).2

theorem hasNN_append_left {a b : Str} (h : hasNN (a ++ b) = false) : hasNN a = false := by
  induction a with
  | nil => rfl
  | cons c t ih =>
    rw [List.cons_append, hasNN_cons] at h
    obtain ⟨h1, h2⟩ := Bool.or_eq_false_iff.1 h
    rw [hasNN_cons]
    refine Bool.or_eq_false_iff.2 ⟨?_, ih h2⟩
    cases t with
    | nil => simp [headIsNL]
    | cons y u => rwa [headIsNL_append (y :: u) b (by simp)] at h1

theorem hasNN_sub {a b : Str} (h : a <:+: b) (hb : hasNN b = false) : hasNN a = false := by
  obtain ⟨s, t, rfl⟩ := h
  rw [List.append_assoc] at hb
  exact hasNN_append_left (hasNN_append_right hb)

theorem noNL_of_digits {s : Str} (h : ∀ c ∈ s, c.isDigit = true) : noNL s = true := by
  unfold noNL
  rw [List.all_eq_true]
  intro c hc
  simp [ne_newline_of_isDigit (h c hc)]

theorem hasNN_of_noNL {s : Str} (h : noNL s = true) : hasNN s = false := by
  induction s with
  | nil => rfl
  | cons c r ih =>
    unfold noNL at h
    rw [List.all_cons, Bool.and_eq_true] at h
    obtain ⟨h1, h2⟩ := h
    rw [Bool.not_eq_true'] at h1
    rw [hasNN_cons, ih h2, Bool.or_false, h1, Bool.false_and]

theorem noNL_sub {a b : Str} (h : a <:+: b) (hb : noNL b = true) : noNL a = true := by
  unfold noNL at hb ⊢
  rw [List.all_eq_true] at hb ⊢
  intro c hc
  exact hb c (List.IsInfix.mem hc h)

theorem dropWhile_headNW (l : Str) : headNW (l.dropWhile pyIsSpace) = true := by
  induction l with
  | nil => rfl
  | cons c t ih =>
    rw [List.dropWhile_cons]
    by_cases hc : pyIsSpace c = true
    · rw [if_pos hc]
      exact ih
    · rw [if_neg hc]
      cases hb : pyIsSpace c with
      | false => simp [headNW, hb]
      | true => exact absurd hb hc

theorem dropWhile_headNW_eq {l : Str} (h : headNW l = true) : l.dropWhile pyIsSpace = l := by
  cases l with
  | nil => rfl
  | cons c t =>
    simp only [headNW, Bool.not_eq_true'] at h
    rw [List.dropWhile_cons, h]
    simp

theorem stripL_sub (s : Str) : stripL s <:+: s := by
  have h1 : s.dropWhile pyIsSpace <:+ s := List.dropWhile_suffix _
  have h2 : (s.dropWhile pyIsSpace).reverse.dropWhile pyIsSpace
      <:+ (s.dropWhile pyIsSpace).reverse := List.dropWhile_suffix _
  have h3 := List.reverse_prefix.2 h2
  rw [List.reverse_reverse] at h3
  exact h3.isInfix.trans h1.isInfix

theorem stripL_headNW (s : Str) : headNW (stripL s) = true := by
  have h2 : (s.dropWhile pyIsSpace).reverse.dropWhile pyIsSpace
      <:+ (s.dropWhile pyIsSpace).reverse := List.dropWhile_suffix _
  have h3 := List.reverse_prefix.2 h2
  rw [List.reverse_reverse] at h3
  obtain ⟨t, ht⟩ := h3
  show headNW (((s.dropWhile pyIsSpace).reverse.dropWhile pyIsSpace).reverse) = true
  rcases hx : ((s.dropWhile pyIsSpace).reverse.dropWhile pyIsSpace).reverse with _ | ⟨c, u⟩
  · rfl
  · rw [hx] at ht
    have hA := dropWhile_headNW s
    rw [← ht, List.cons_append] at hA
    simp only [headNW] at hA ⊢
    exact hA

theorem stripL_lastNW (s : Str) : lastNW (stripL s) = true := by
  unfold lastNW stripL
  rw [List.reverse_reverse]
  exact dropWhile_headNW _

theorem splitNN_ne_nil : ∀ (s : Str), splitNN s ≠ []
  | [] => by simp [splitNN]
  | [c] => by simp [splitNN]
  | a :: b :: r => by
    unfold splitNN
    split
    · simp
    · rcases hsp : splitNN (b :: r) with _ | ⟨q, qs⟩
      · simp
      · simp

theorem splitNN_head_shape (c : Char) (t : Str) (p : Str) (ps : List Str)
    (h : splitNN (c :: t) = p :: ps) : p = [] ∨ ∃ q, p = c :: q := by
  cases t with
  | nil =>
    rw [show splitNN [c] = [[c]] from rfl] at h
    injection h with h1 _
    exact Or.inr ⟨[], h1.symm⟩
  | cons d t2 =>
    unfold splitNN at h
    by_cases hcd : c = '\n' ∧ d = '\n'
    · rw [if_pos hcd] at h
      injection h with h1 _
      exact Or.inl h1.symm
    · rw [if_neg hcd] at h
      rcases hsp : splitNN (d :: t2) with _ | ⟨q, qs⟩
      · exact absurd hsp (splitNN_ne_nil _)
      · rw [hsp] at h
        injection h with h1 _
        exact Or.inr ⟨q, h1.symm⟩

theorem splitNN_pieces : ∀ (s : Str), ∀ p ∈ splitNN s, hasNN p = false
  | [] => by
    intro p hp
    simp [splitNN] at hp
    subst hp
    rfl
  | [c] => by
    intro p hp
    simp [splitNN] at hp
    subst hp
    rfl
  | a :: b :: r => by
    intro p hp
    unfold splitNN at hp
    by_cases hab : a = '\n' ∧ b = '\n'
    · rw [if_pos hab] at hp
      rcases List.mem_cons.1 hp with rfl | hp
      · rfl
      · exact splitNN_pieces r p hp
    · rw [if_neg hab] at hp
      rcases hsp : splitNN (b :: r) with _ | ⟨q, qs⟩
      · exact absurd hsp (splitNN_ne_nil _)
      · rw [hsp] at hp
        rcases List.mem_cons.1 hp with rfl | hp
        · have hq : hasNN q = false :=
            splitNN_pieces (b :: r) q (by rw [hsp]; exact List.mem_cons_self q qs)
          rw [hasNN_cons, hq, Bool.or_false]
          rcases splitNN_head_shape b r q qs hsp with rfl | ⟨q2, rfl⟩
          · simp [headIsNL]
          · by_cases ha : a = '\n'
            · have hb : b ≠ '\n' := fun hb => hab ⟨ha, hb⟩
              simp [headIsNL, hb]
            · simp [ha]
        · exact splitNN_pieces (b :: r) p (by rw [hsp]; exact List.mem_cons_of_mem q hp)
termination_by s => s.length

theorem splitNN_no_sep : ∀ (s : Str), hasNN s = false → splitNN s = [s]
  | [] => fun _ => rfl
  | [c] => fun _ => rfl
  | a :: b :: r => fun h => by
    have h' : ((decide (a = '\n') && decide (b = '\n')) || hasNN (b :: r)) = false := h
    obtain ⟨h1, h2⟩ := Bool.or_eq_false_iff.1 h'
    have hrec := splitNN_no_sep (b :: r) h2
    unfold splitNN
    rw [if_neg (fun hc => by rcases hc with ⟨x, y⟩; subst x; subst y; simp at h1), hrec]
termination_by s => s.length

theorem splitNN_append_sep : ∀ (a r : Str), hasNN a = false → a.getLast? ≠ some '\n' →
    splitNN (a ++ '\n' :: '\n' :: r) = a :: splitNN r
  | [], r => fun _ _ => by
    rw [List.nil_append]
    show splitNN ('\n' :: '\n' :: r) = [] :: splitNN r
    simp [splitNN]
  | [c], r => fun _ hl => by
    have hc : c ≠ '\n' := by simpa using hl
    show splitNN (c :: '\n' :: '\n' :: r) = [c] :: splitNN r
    simp [splitNN, hc]
  | c :: d :: t, r => fun h hl => by
    have h' : ((decide (c = '\n') && decide (d = '\n')) || hasNN (d :: t)) = false := h
    obtain ⟨h1, h2⟩ := Bool.or_eq_false_iff.1 h'
    have hl2 : (d :: t).getLast? ≠ some '\n' := by rwa [List.getLast?_cons_cons] at hl
    have hrec : splitNN (d :: (t ++ '\n' :: '\n' :: r)) = (d :: t) :: splitNN r :=
      splitNN_append_sep (d :: t) r h2 hl2
    have hne : ¬(c = '\n' ∧ d = '\n') := by
      rintro ⟨x, y⟩
      subst x
      subst y
      simp at h1
    show splitNN (c :: d :: (t ++ '\n' :: '\n' :: r)) = (c :: d :: t) :: splitNN r
    simp only [splitNN]
    rw [if_neg hne, hrec]
termination_by a r => a.length

theorem splitNN_cons_length (c : Char) (s : Str)
    (h : headIsNL s = false ∨ c ≠ '\n') :
    (splitNN (c :: s)).length = (splitNN s).length := by
  cases s with
  | nil => rfl
  | cons b r =>
    have hcb : ¬(c = '\n' ∧ b = '\n') := by
      rcases h with h | h
      · intro hx
        simp [headIsNL, hx.2] at h
      · exact fun hx => h hx.1
    have hstep : splitNN (c :: b :: r)
        = match splitNN (b :: r) with
          | [] => [[c]]
          | p :: ps => (c :: p) :: ps := by
      simp only [splitNN]
      rw [if_neg hcb]
    rw [hstep]
    rcases hsp : splitNN (b :: r) with _ | ⟨q, qs⟩
    · exact absurd hsp (splitNN_ne_nil _)
    · simp

theorem splitNl_ne_nil (s : Str) : splitNl s ≠ [] := by
  cases s with
  | nil => simp [splitNl]
  | cons c r =>
    unfold splitNl
    split
    · simp
    · rcases hsp : splitNl r with _ | ⟨q, qs⟩
      · simp
      · simp

theorem splitNl_pieces (s : Str) : ∀ p ∈ splitNl s, noNL p = true := by
  induction s with
  | nil =>
    intro p hp
    simp [splitNl] at hp
    subst hp
    rfl
  | cons c r ih =>
    intro p hp
    unfold splitNl at hp
    by_cases hc : c = '\n'
    · rw [if_pos hc] at hp
      rcases List.mem_cons.1 hp with rfl | hp
      · rfl
      · exact ih p hp
    · rw [if_neg hc] at hp
      rcases hsp : splitNl r with _ | ⟨q, qs⟩
      · exact absurd hsp (splitNl_ne_nil r)
      · rw [hsp] at hp
        rcases List.mem_cons.1 hp with rfl | hp
        · have hq := ih q (by rw [hsp]; exact List.mem_cons_self q qs)
          simp only [noNL] at hq ⊢
          rw [List.all_cons, hq]
          simp [hc]
        · exact ih p (by rw [hsp]; exact List.mem_cons_of_mem q hp)

theorem joinNl_cons (x : Str) (ys : List Str) (h : ys ≠ []) :
    joinNl (x :: ys) = x ++ '\n' :: joinNl ys := by
  cases ys with
  | nil => exact absurd rfl h
  | cons y ys2 => rfl

theorem joinNl_splitNl (s : Str) : joinNl (splitNl s) = s := by
  induction s with
  | nil => rfl
  | cons c r ih =>
    unfold splitNl
    by_cases hc : c = '\n'
    · subst hc
      rw [if_pos rfl, joinNl_cons _ _ (splitNl_ne_nil r), ih]
      rfl
    · rw [if_neg hc]
      rcases hsp : splitNl r with _ | ⟨q, qs⟩
      · exact absurd hsp (splitNl_ne_nil r)
      · rw [hsp] at ih
        cases qs with
        | nil =>
          simp only [joinNl] at ih ⊢
          rw [ih]
        | cons q2 qs2 =>
          rw [joinNl_cons _ _ (by simp)]
          rw [joinNl_cons _ _ (by simp)] at ih
          rw [← ih]
          simp

theorem joinNl_suffix (xs ys : List Str) (h : ys ≠ []) :
    joinNl ys <:+ joinNl (xs ++ ys) := by
  induction xs with
  | nil =>
    rw [List.nil_append]
  | cons x xs ih =>
    rw [List.cons_append, joinNl_cons x (xs ++ ys) (by simp [h])]
    exact ih.trans ((List.suffix_cons '\n' _).trans (List.suffix_append x _))

theorem findAnchor_eq (ls : List Str) : ∀ (pre : List Str) (t : Str) (post : List Str),
    findAnchor ls = some (pre, t, post) → ls = pre ++ t :: post := by
  induction ls with
  | nil =>
    intro pre t post h
    simp [findAnchor] at h
  | cons l rest ih =>
    intro pre t post h
    unfold findAnchor at h
    by_cases hl : timeSearch l
    · rw [if_pos hl] at h
      simp only [Option.some.injEq, Prod.mk.injEq] at h
      obtain ⟨rfl, rfl, rfl⟩ := h
      rfl
    · rw [if_neg hl] at h
      rcases hfa : findAnchor rest with _ | ⟨⟨pre2, t2, post2⟩⟩
      · rw [hfa] at h
        simp at h
      · rw [hfa] at h
        simp only [Option.some.injEq, Prod.mk.injEq] at h
        obtain ⟨rfl, rfl, rfl⟩ := h
        rw [ih pre2 t2 post2 hfa]
        rfl

/-- One serialized stream entry: index line, payload, blank separator
line (the f-string written per block by _split_single_srt). -/
def entryStr (e : Str × Str) : Str := e.1 ++ '\n' :: e.2 ++ ['\n', '\n']

/-- A whole stream file: the concatenation of its entries. -/
def streamStr (es : List (Str × Str)) : Str := (es.map entryStr).flatten

/-- The invariant parse_srt_content guarantees for each (index,
payload) pair it emits: a nonempty all-digit index; a payload free of
the blank-line separator and of surrounding whitespace. -/
def InvEntry (e : Str × Str) : Prop :=
  e.1 ≠ [] ∧ (∀ c ∈ e.1, c.isDigit = true) ∧
  hasNN e.2 = false ∧ headNW e.2 = true ∧ lastNW e.2 = true

/-- The last stream entry as str.strip() leaves it. -/
def lastPiece (e : Str × Str) : Str :=
  if e.2 = [] then e.1 else e.1 ++ '\n' :: e.2

/-- The whole stream as str.strip() leaves it: full entries except the
last, which loses its trailing blank line. -/
def strippedStream : List (Str × Str) → Str
  | [] => []
  | [e] => lastPiece e
  | e :: e2 :: rest => entryStr e ++ strippedStream (e2 :: rest)

theorem streamStr_cons (e : Str × Str) (es : List (Str × Str)) :
    streamStr (e :: es) = entryStr e ++ streamStr es := by
  simp [streamStr]

theorem strippedStream_cons_ex (e : Str × Str) (es : List (Str × Str)) :
    ∃ t, strippedStream (e :: es) = e.1 ++ t := by
  cases es with
  | nil =>
    unfold strippedStream lastPiece
    split
    · exact ⟨[], by simp⟩
    · exact ⟨'\n' :: e.2, rfl⟩
  | cons e2 rest =>
    refine ⟨'\n' :: e.2 ++ ['\n', '\n'] ++ strippedStream (e2 :: rest), ?_⟩
    show entryStr e ++ strippedStream (e2 :: rest) = _
    simp [entryStr]

theorem headNW_digits_append {n : Str} (t : Str) (hn : n ≠ [])
    (hd : ∀ c ∈ n, c.isDigit = true) : headNW (n ++ t) = true := by
  cases n with
  | nil => exact absurd rfl hn
  | cons c u =>
    have hc : c.isDigit = true := hd c (List.mem_cons_self c u)
    simp [headNW, List.cons_append, not_space_of_isDigit hc]

theorem headIsNL_digits_append {n : Str} (t : Str) (hn : n ≠ [])
    (hd : ∀ c ∈ n, c.isDigit = true) : headIsNL (n ++ t) = false := by
  cases n with
  | nil => exact absurd rfl hn
  | cons c u =>
    simp [headIsNL, List.cons_append, ne_newline_of_isDigit (hd c (List.mem_cons_self c u))]

theorem lastNW_of_digits {l : Str} (h : ∀ c ∈ l, c.isDigit = true) : lastNW l = true := by
  unfold lastNW
  rcases hrev : l.reverse with _ | ⟨c, t⟩
  · rfl
  · have hc : c ∈ l := by
      rw [← List.mem_reverse, hrev]
      exact List.mem_cons_self c t
    simp [headNW, not_space_of_isDigit (h c hc)]

theorem getLast_ne_nl_of_lastNW {l : Str} (h : lastNW l = true) :
    l.getLast? ≠ some '\n' := by
  unfold lastNW at h
  rcases hrev : l.reverse with _ | ⟨c, t⟩
  · rw [List.reverse_eq_nil_iff] at hrev
    subst hrev
    simp
  · rw [hrev] at h
    have hg : l.getLast? = some c := by
      rw [← List.head?_reverse, hrev]
      rfl
    rw [hg]
    intro heq
    simp only [Option.some.injEq] at heq
    subst heq
    simp [headNW, pyIsSpace] at h

theorem getLast_digits_ne_nl {n : Str} (hd : ∀ c ∈ n, c.isDigit = true) :
    n.getLast? ≠ some '\n' :=
  getLast_ne_nl_of_lastNW (lastNW_of_digits hd)

theorem hasNN_glue {n p : Str} (hn : noNL n = true) (hp : hasNN p = false)
    (hh : headNW p = true) : hasNN (n ++ '\n' :: p) = false := by
  induction n with
  | nil =>
    rw [List.nil_append, hasNN_cons, hp, Bool.or_false]
    cases p with
    | nil => simp [headIsNL]
    | cons x xs =>
      simp only [headNW, Bool.not_eq_true'] at hh
      have hx : x ≠ '\n' := by
        intro hx
        subst hx
        simp [pyIsSpace] at hh
      simp [headIsNL, hx]
  | cons c nr ih =>
    unfold noNL at hn
    rw [List.all_cons, Bool.and_eq_true] at hn
    obtain ⟨h1, h2⟩ := hn
    rw [Bool.not_eq_true'] at h1
    rw [List.cons_append, hasNN_cons, ih h2, Bool.or_false, h1, Bool.false_and]

theorem hasNN_lastPiece {e : Str × Str} (h : InvEntry e) : hasNN (lastPiece e) = false := by
  obtain ⟨hn, hd, hNN, hh, _⟩ := h
  unfold lastPiece
  split
  · exact hasNN_of_noNL (noNL_of_digits hd)
  · exact hasNN_glue (noNL_of_digits hd) hNN hh

theorem getLast_glue_ne_nl {n p : Str} (hp : p ≠ []) (hl : lastNW p = true) :
    (n ++ '\n' :: p).getLast? ≠ some '\n' := by
  rw [List.getLast?_append_of_ne_nil n (by simp)]
  cases p with
  | nil => exact absurd rfl hp
  | cons x xs =>
    rw [List.getLast?_cons_cons]
    exact getLast_ne_nl_of_lastNW hl

theorem entryStr_reverse (e : Str × Str) :
    (entryStr e).reverse = '\n' :: '\n' :: (e.2.reverse ++ '\n' :: e.1.reverse) := by
  simp [entryStr]

theorem streamStr_stripR : ∀ (es : List (Str × Str)), (∀ e ∈ es, InvEntry e) → es ≠ [] →
    (streamStr es).reverse.dropWhile pyIsSpace = (strippedStream es).reverse
  | [] => fun _ h => absurd rfl h
  | [e] => fun hinv _ => by
    obtain ⟨hn, hd, hNN, hh, hl⟩ := hinv e (List.mem_cons_self e [])
    have hstream : streamStr [e] = entryStr e := by simp [streamStr]
    rw [hstream, entryStr_reverse, List.dropWhile_cons, if_pos (by decide),
      List.dropWhile_cons, if_pos (by decide)]
    by_cases hp : e.2 = []
    · rw [hp]
      simp only [List.reverse_nil, List.nil_append]
      rw [List.dropWhile_cons, if_pos (by decide),
        dropWhile_headNW_eq (lastNW_of_digits hd)]
      simp only [strippedStream, lastPiece]
      rw [if_pos hp]
    · rw [List.dropWhile_append, dropWhile_headNW_eq hl,
        if_neg (by simp [List.isEmpty_iff, hp])]
      simp only [strippedStream, lastPiece]
      rw [if_neg hp]
      simp
  | e :: e2 :: rest => fun hinv _ => by
    have hinv2 : ∀ x ∈ e2 :: rest, InvEntry x := fun x hx => hinv x (List.mem_cons_of_mem e hx)
    have ih := streamStr_stripR (e2 :: rest) hinv2 (by simp)
    obtain ⟨t, ht⟩ := strippedStream_cons_ex e2 rest
    obtain ⟨hn2, _, _⟩ := hinv2 e2 (List.mem_cons_self e2 rest)
    have hne2 : ¬((strippedStream (e2 :: rest)).reverse.isEmpty = true) := by
      rw [ht]
      simp [List.isEmpty_iff, List.append_eq_nil, hn2]
    rw [streamStr_cons, List.reverse_append, List.dropWhile_append, ih, if_neg hne2]
    rw [show strippedStream (e :: e2 :: rest) = entryStr e ++ strippedStream (e2 :: rest)
      from rfl]
    rw [List.reverse_append]

theorem streamStr_dropWhile (es : List (Str × Str)) (hinv : ∀ e ∈ es, InvEntry e)
    (hne : es ≠ []) : (streamStr es).dropWhile pyIsSpace = streamStr es := by
  cases es with
  | nil => exact absurd rfl hne
  | cons e rest =>
    obtain ⟨hn, hd, _⟩ := hinv e (List.mem_cons_self e rest)
    rw [streamStr_cons]
    apply dropWhile_headNW_eq
    rw [show entryStr e ++ streamStr rest
        = e.1 ++ ('\n' :: e.2 ++ ['\n', '\n'] ++ streamStr rest) from by simp [entryStr]]
    exact headNW_digits_append _ hn hd

theorem stripL_streamStr (es : List (Str × Str)) (hinv : ∀ e ∈ es, InvEntry e)
    (hne : es ≠ []) : stripL (streamStr es) = strippedStream es := by
  unfold stripL
  rw [streamStr_dropWhile es hinv hne, streamStr_stripR es hinv hne, List.reverse_reverse]

theorem strippedStream_count : ∀ (es : List (Str × Str)), (∀ e ∈ es, InvEntry e) →
    es ≠ [] → (splitNN (strippedStream es)).length = es.length
  | [] => fun _ h => absurd rfl h
  | [e] => fun hinv _ => by
    have hinv1 := hinv e (List.mem_cons_self e [])
    show (splitNN (lastPiece e)).length = 1
    rw [splitNN_no_sep _ (hasNN_lastPiece hinv1)]
    rfl
  | e :: e2 :: rest => fun hinv _ => by
    obtain ⟨hn, hd, hNN, hh, hl⟩ := hinv e (List.mem_cons_self e (e2 :: rest))
    have hinv2 : ∀ x ∈ e2 :: rest, InvEntry x := fun x hx => hinv x (List.mem_cons_of_mem e hx)
    have ih := strippedStream_count (e2 :: rest) hinv2 (by simp)
    obtain ⟨t, ht⟩ := strippedStream_cons_ex e2 rest
    obtain ⟨hn2, hd2, _⟩ := hinv2 e2 (List.mem_cons_self e2 rest)
    by_cases hp : e.2 = []
    · have hshape : strippedStream (e :: e2 :: rest)
          = e.1 ++ '\n' :: '\n' :: ('\n' :: strippedStream (e2 :: rest)) := by
        show entryStr e ++ strippedStream (e2 :: rest) = _
        simp [entryStr, hp]
      have hhead : headIsNL (strippedStream (e2 :: rest)) = false := by
        rw [ht]
        exact headIsNL_digits_append t hn2 hd2
      rw [hshape,
        splitNN_append_sep e.1 _ (hasNN_of_noNL (noNL_of_digits hd)) (getLast_digits_ne_nl hd),
        List.length_cons, splitNN_cons_length '\n' _ (Or.inl hhead), ih]
      simp
    · have hshape : strippedStream (e :: e2 :: rest)
          = (e.1 ++ '\n' :: e.2) ++ '\n' :: '\n' :: strippedStream (e2 :: rest) := by
        show entryStr e ++ strippedStream (e2 :: rest) = _
        simp [entryStr]
      rw [hshape,
        splitNN_append_sep _ _ (hasNN_glue (noNL_of_digits hd) hNN hh) (getLast_glue_ne_nl hp hl),
        List.length_cons, ih]
      simp

theorem pyIsDigit_spec {s : Str} (h : pyIsDigit s = true) :
    s ≠ [] ∧ ∀ c ∈ s, c.isDigit = true := by
  unfold pyIsDigit at h
  rw [Bool.and_eq_true] at h
  obtain ⟨h1, h2⟩ := h
  refine ⟨?_, ?_⟩
  · intro he
    subst he
    simp at h1
  · rw [List.all_eq_true] at h2
    intro c hc
    exact h2 c hc

theorem parseChunks_inv : ∀ (chunks : List Str) (k : ℕ),
    (∀ ch ∈ chunks, hasNN ch = false) →
    ∀ b ∈ parseChunks chunks k,
      (b.number ≠ [] ∧ ∀ c ∈ b.number, c.isDigit = true) ∧
      (noNL b.time = true ∧ headNW b.time = true ∧ lastNW b.time = true) ∧
      (hasNN b.text = false ∧ headNW b.text = true ∧ lastNW b.text = true) := by
  intro chunks
  induction chunks with
  | nil =>
    intro k _ b hb
    simp [parseChunks] at hb
  | cons ch rest ih =>
    intro k hch b hb
    have hch2 : ∀ x ∈ rest, hasNN x = false := fun x hx => hch x (List.mem_cons_of_mem ch hx)
    unfold parseChunks at hb
    split at hb
    · exact ih k hch2 b hb
    next l0 ltail hsp =>
      split at hb
      · exact ih k hch2 b hb
      next h0 =>
        split at hb
        · exact ih k hch2 b hb
        next pre tline post hfa =>
          rcases List.mem_cons.1 hb with rfl | hb
          · have hchNN : hasNN (stripL ch) = false :=
              hasNN_sub (stripL_sub ch) (hch ch (List.mem_cons_self ch rest))
            have hlines : l0 :: ltail = pre ++ tline :: post := findAnchor_eq _ pre tline post hfa
            have htlmem : tline ∈ splitNl (stripL ch) := by
              rw [hsp, hlines]
              exact List.mem_append_right pre (List.mem_cons_self tline post)
            have htime : noNL (stripL tline) = true :=
              noNL_sub (stripL_sub tline) (splitNl_pieces (stripL ch) tline htlmem)
            have htext : hasNN (stripL (joinNl post)) = false := by
              cases hpost : post with
              | nil => rfl
              | cons p1 ps =>
                rw [← hpost]
                have h1 : joinNl post <:+ joinNl ((pre ++ [tline]) ++ post) :=
                  joinNl_suffix (pre ++ [tline]) post (by simp [hpost])
                rw [← List.append_cons] at h1
                rw [← hlines, ← hsp, joinNl_splitNl] at h1
                exact hasNN_sub (stripL_sub _) (hasNN_sub h1.isInfix hchNN)
            have hnumInv :
                (if pyIsDigit (stripL (joinNl pre)) then stripL (joinNl pre) else natLit k) ≠ []
                ∧ ∀ c ∈ (if pyIsDigit (stripL (joinNl pre)) then stripL (joinNl pre)
                    else natLit k), c.isDigit = true := by
              by_cases hnum : pyIsDigit (stripL (joinNl pre)) = true
              · rw [if_pos hnum]
                exact pyIsDigit_spec hnum
              · rw [if_neg hnum]
                exact ⟨natLit_ne_nil, (pyIsDigit_spec pyIsDigit_natLit).2⟩
            exact ⟨hnumInv,
              ⟨htime, stripL_headNW tline, stripL_lastNW tline⟩,
              ⟨htext, stripL_headNW _, stripL_lastNW _⟩⟩
          · exact ih (k + 1) hch2 b hb

theorem parse_inv (content : Str) : ∀ b ∈ parse_srt_content content,
    (b.number ≠ [] ∧ ∀ c ∈ b.number, c.isDigit = true) ∧
    (noNL b.time = true ∧ headNW b.time = true ∧ lastNW b.time = true) ∧
    (hasNN b.text = false ∧ headNW b.text = true ∧ lastNW b.text = true) :=
  fun b hb => parseChunks_inv (splitNN (stripL content)) 1
    (fun ch hch => splitNN_pieces (stripL content) ch hch) b hb

theorem splitTimeContent_eq (blocks : List SrtBlock) :
    splitTimeContent blocks = streamStr (blocks.map fun b => (b.number, b.time)) := by
  unfold splitTimeContent streamStr
  rw [List.map_map]
  rfl

theorem splitSentenceContent_eq (blocks : List SrtBlock) :
    splitSentenceContent blocks = streamStr (blocks.map fun b => (b.number, b.text)) := by
  unfold splitSentenceContent streamStr
  rw [List.map_map]
  rfl

/-- C2 (counterexample): for the empty input the parsed block sequence
is empty, yet each serialized stream re-split on the blank-line
delimiter yields one chunk (Python str.split never returns an empty
list), so the chunk counts do not equal the block count. -/
theorem chunk_count_counterexample :
    parse_srt_content [] = [] ∧
    (splitNN (stripL (splitTimeContent (parse_srt_content [])))).length = 1 ∧
    (splitNN (stripL (splitSentenceContent (parse_srt_content [])))).length = 1 := by
  decide

/-- C2 (amended): for every input whose parsed block sequence is
nonempty (including blocks with empty text), the time stream and the
sentence stream serialized by the Splitter, re-split on the blank-line
delimiter after stripping as the Merger does, each contain exactly as
many chunks as there are parsed blocks. -/
theorem chunk_count_invariant (content : Str)
    (hne : parse_srt_content content ≠ []) :
    (splitNN (stripL (splitTimeContent (parse_srt_content content)))).length
      = (parse_srt_content content).length ∧
    (splitNN (stripL (splitSentenceContent (parse_srt_content content)))).length
      = (parse_srt_content content).length := by
  have hinv := parse_inv content
  constructor
  · rw [splitTimeContent_eq]
    have hes : ∀ e ∈ (parse_srt_content content).map (fun b => (b.number, b.time)),
        InvEntry e := by
      intro e he
      rw [List.mem_map] at he
      obtain ⟨b, hb, rfl⟩ := he
      obtain ⟨⟨h1, h2⟩, ⟨h3, h4, h5⟩, _⟩ := hinv b hb
      exact ⟨h1, h2, hasNN_of_noNL h3, h4, h5⟩
    have hesne : (parse_srt_content content).map (fun b => (b.number, b.time)) ≠ [] :=
      fun h => hne (List.map_eq_nil_iff.1 h)
    rw [stripL_streamStr _ hes hesne, strippedStream_count _ hes hesne, List.length_map]
  · rw [splitSentenceContent_eq]
    have hes : ∀ e ∈ (parse_srt_content content).map (fun b => (b.number, b.text)),
        InvEntry e := by
      intro e he
      rw [List.mem_map] at he
      obtain ⟨b, hb, rfl⟩ := he
      obtain ⟨⟨h1, h2⟩, _, ⟨h3, h4, h5⟩⟩ := hinv b hb
      exact ⟨h1, h2, h3, h4, h5⟩
    have hesne : (parse_srt_content content).map (fun b => (b.number, b.text)) ≠ [] :=
      fun h => hne (List.map_eq_nil_iff.1 h)
    rw [stripL_streamStr _ hes hesne, strippedStream_count _ hes hesne, List.length_map]

/-- C2 (witness): the amended chunk-count equality at a concrete
one-block input. -/
theorem chunk_count_invariant_witness :
    (splitNN (stripL (splitTimeContent
        (parse_srt_content ("1\n00:00:00,000 --> 00:00:01,000\nHi").data)))).length
      = (parse_srt_content ("1\n00:00:00,000 --> 00:00:01,000\nHi").data).length ∧
    (splitNN (stripL (splitSentenceContent
        (parse_srt_content ("1\n00:00:00,000 --> 00:00:01,000\nHi").data)))).length
      = (parse_srt_content ("1\n00:00:00,000 --> 00:00:01,000\nHi").data).length :=
  chunk_count_invariant ("1\n00:00:00,000 --> 00:00:01,000\nHi").data (by decide)

/-! ### Claim C1: the split/merge round trip on single-line cues -/

theorem pyIsDigit_intro {s : Str} (hn : s ≠ []) (hd : ∀ c ∈ s, c.isDigit = true) :
    pyIsDigit s = true := by
  unfold pyIsDigit
  rw [Bool.and_eq_true]
  constructor
  · cases s with
    | nil => exact absurd rfl hn
    | cons c t => rfl
  · rw [List.all_eq_true]
    exact hd

theorem stripL_eq_self {s : Str} (hh : headNW s = true) (hl : lastNW s = true) :
    stripL s = s := by
  unfold stripL
  rw [dropWhile_headNW_eq hh, dropWhile_headNW_eq hl, List.reverse_reverse]

theorem lastNW_append {a b : Str} (hb : b ≠ []) : lastNW (a ++ b) = lastNW b := by
  unfold lastNW
  rw [List.reverse_append]
  cases hrev : b.reverse with
  | nil =>
    rw [List.reverse_eq_nil_iff] at hrev
    exact absurd hrev hb
  | cons c t => rfl

theorem splitNl_noNL {s : Str} (h : noNL s = true) : splitNl s = [s] := by
  induction s with
  | nil => rfl
  | cons c r ih =>
    unfold noNL at h
    rw [List.all_cons, Bool.and_eq_true] at h
    obtain ⟨h1, h2⟩ := h
    rw [Bool.not_eq_true'] at h1
    have hc : ¬(c = '\n') := by simpa using h1
    simp only [splitNl]
    rw [if_neg hc, ih h2]

theorem splitNl_append_nl (a b : Str) (ha : noNL a = true) :
    splitNl (a ++ '\n' :: b) = a :: splitNl b := by
  induction a with
  | nil =>
    rw [List.nil_append]
    simp [splitNl]
  | cons c a2 ih =>
    unfold noNL at ha
    rw [List.all_cons, Bool.and_eq_true] at ha
    obtain ⟨h1, h2⟩ := ha
    rw [Bool.not_eq_true'] at h1
    have hc : ¬(c = '\n') := by simpa using h1
    rw [List.cons_append]
    simp only [splitNl]
    rw [if_neg hc, ih h2]

theorem strippedStream_pieces : ∀ (es : List (Str × Str)),
    (∀ e ∈ es, InvEntry e ∧ e.2 ≠ []) → es ≠ [] →
    splitNN (strippedStream es) = es.map (fun e => e.1 ++ '\n' :: e.2)
  | [] => fun _ h => absurd rfl h
  | [e] => fun hinv _ => by
    obtain ⟨⟨hn, hd, hNN, hh, hl⟩, hpne⟩ := hinv e (List.mem_cons_self e [])
    show splitNN (lastPiece e) = [e.1 ++ '\n' :: e.2]
    unfold lastPiece
    rw [if_neg hpne, splitNN_no_sep _ (hasNN_glue (noNL_of_digits hd) hNN hh)]
  | e :: e2 :: rest => fun hinv _ => by
    obtain ⟨⟨hn, hd, hNN, hh, hl⟩, hpne⟩ := hinv e (List.mem_cons_self e (e2 :: rest))
    have hinv2 : ∀ x ∈ e2 :: rest, InvEntry x ∧ x.2 ≠ [] :=
      fun x hx => hinv x (List.mem_cons_of_mem e hx)
    have ih := strippedStream_pieces (e2 :: rest) hinv2 (by simp)
    have hshape : strippedStream (e :: e2 :: rest)
        = (e.1 ++ '\n' :: e.2) ++ '\n' :: '\n' :: strippedStream (e2 :: rest) := by
      show entryStr e ++ strippedStream (e2 :: rest) = _
      simp [entryStr]
    rw [hshape,
      splitNN_append_sep _ _ (hasNN_glue (noNL_of_digits hd) hNN hh) (getLast_glue_ne_nl hpne hl),
      ih]
    rfl

theorem mergeChunkPieces_singleline : ∀ (B : List SrtBlock) (k : ℕ),
    (∀ b ∈ B,
      (b.number ≠ [] ∧ ∀ c ∈ b.number, c.isDigit = true) ∧
      (b.time ≠ [] ∧ noNL b.time = true ∧ headNW b.time = true ∧ lastNW b.time = true) ∧
      (b.text ≠ [] ∧ noNL b.text = true ∧ headNW b.text = true ∧ lastNW b.text = true)) →
    mergeChunkPieces
      (B.map fun b => (b.number ++ '\n' :: b.time, b.number ++ '\n' :: b.text)) k
      = (List.enumFrom k B).map
          (fun x => natLit x.1 ++ '\n' :: x.2.time ++ '\n' :: x.2.text ++ ['\n'])
  | [] => fun _ _ => rfl
  | b :: B2 => fun k hinv => by
    obtain ⟨⟨hn, hd⟩, ⟨htne, htnl, hth, htl⟩, ⟨hxne, hxnl, hxh, hxl⟩⟩ :=
      hinv b (List.mem_cons_self b B2)
    have ih := mergeChunkPieces_singleline B2 (k + 1)
      (fun x hx => hinv x (List.mem_cons_of_mem b hx))
    have hstripT : stripL (b.number ++ '\n' :: b.time) = b.number ++ '\n' :: b.time :=
      stripL_eq_self (headNW_digits_append _ hn hd)
        (by rw [List.append_cons, lastNW_append htne]; exact htl)
    have hstripS : stripL (b.number ++ '\n' :: b.text) = b.number ++ '\n' :: b.text :=
      stripL_eq_self (headNW_digits_append _ hn hd)
        (by rw [List.append_cons, lastNW_append hxne]; exact hxl)
    have hsplitT : splitNl (stripL (b.number ++ '\n' :: b.time)) = [b.number, b.time] := by
      rw [hstripT, splitNl_append_nl _ _ (noNL_of_digits hd), splitNl_noNL htnl]
    have hsplitS : splitNl (stripL (b.number ++ '\n' :: b.text)) = [b.number, b.text] := by
      rw [hstripS, splitNl_append_nl _ _ (noNL_of_digits hd), splitNl_noNL hxnl]
    have hml : mergeTextLines b.number [b.number, b.text] = [b.text] := by
      show List.filter (fun l => decide (stripL l ≠ []))
          (if (pyIsDigit b.number && decide (b.number = b.number)) = true then [b.text]
            else [b.number, b.text]) = [b.text]
      rw [if_pos (by simp [pyIsDigit_intro hn hd])]
      simp [List.filter_cons, stripL_eq_self hxh hxl, hxne]
    rw [List.map_cons]
    simp only [mergeChunkPieces, hsplitT, hsplitS, hml]
    rw [if_neg (by simp), ih]
    rfl

/-- C1: for every input whose parsed blocks have sequential indices
1..N (as checked by _validate_sequential_numbering) and exactly one
non-empty text line each (and nonempty time lines), merging the two
streams written by the Splitter reproduces, block for block, the very
time-range line and text line of each parsed block, with the block
indices renumbered sequentially 1..N; in particular, re-parsing the
merged output of a concrete two-block input returns the original
time ranges and texts with indices 1..2. -/
theorem split_merge_round_trip :
    (∀ content : Str,
      _validate_sequential_numbering content = (true, -1) →
      (∀ b ∈ parse_srt_content content,
        b.time ≠ [] ∧ b.text ≠ [] ∧ noNL b.text = true) →
      _merge_single_srt (splitTimeContent (parse_srt_content content))
          (splitSentenceContent (parse_srt_content content))
        = joinNl ((List.enumFrom 1 (parse_srt_content content)).map
            (fun x => natLit x.1 ++ '\n' :: x.2.time ++ '\n' :: x.2.text ++ ['\n']))) ∧
    parse_srt_content (_merge_single_srt
        (splitTimeContent (parse_srt_content
          ("1\n00:00:00,000 --> 00:00:01,000\nHi\n\n2\n00:00:02,500 --> 00:00:03,000\nYo").data))
        (splitSentenceContent (parse_srt_content
          ("1\n00:00:00,000 --> 00:00:01,000\nHi\n\n2\n00:00:02,500 --> 00:00:03,000\nYo").data)))
      = [⟨("1").data, ("00:00:00,000 --> 00:00:01,000").data, ("Hi").data⟩,
         ⟨("2").data, ("00:00:02,500 --> 00:00:03,000").data, ("Yo").data⟩] := by
  constructor
  · intro content _ hcue
    by_cases hB : parse_srt_content content = []
    · rw [hB]
      decide
    · have hinv := parse_inv content
      have hesT : ∀ e ∈ (parse_srt_content content).map (fun b => (b.number, b.time)),
          InvEntry e ∧ e.2 ≠ [] := by
        intro e he
        rw [List.mem_map] at he
        obtain ⟨b, hb, rfl⟩ := he
        obtain ⟨⟨h1, h2⟩, ⟨h3, h4, h5⟩, _⟩ := hinv b hb
        exact ⟨⟨h1, h2, hasNN_of_noNL h3, h4, h5⟩, (hcue b hb).1⟩
      have hesS : ∀ e ∈ (parse_srt_content content).map (fun b => (b.number, b.text)),
          InvEntry e ∧ e.2 ≠ [] := by
        intro e he
        rw [List.mem_map] at he
        obtain ⟨b, hb, rfl⟩ := he
        obtain ⟨⟨h1, h2⟩, _, ⟨h6, h7, h8⟩⟩ := hinv b hb
        exact ⟨⟨h1, h2, h6, h7, h8⟩, (hcue b hb).2.1⟩
      have hneT : (parse_srt_content content).map (fun b => (b.number, b.time)) ≠ [] :=
        fun h => hB (List.map_eq_nil_iff.1 h)
      have hneS : (parse_srt_content content).map (fun b => (b.number, b.text)) ≠ [] :=
        fun h => hB (List.map_eq_nil_iff.1 h)
      have hblocks : ∀ b ∈ parse_srt_content content,
          (b.number ≠ [] ∧ ∀ c ∈ b.number, c.isDigit = true) ∧
          (b.time ≠ [] ∧ noNL b.time = true ∧ headNW b.time = true ∧ lastNW b.time = true) ∧
          (b.text ≠ [] ∧ noNL b.text = true ∧ headNW b.text = true ∧ lastNW b.text = true) := by
        intro b hb
        obtain ⟨⟨h1, h2⟩, ⟨h3, h4, h5⟩, ⟨h6, h7, h8⟩⟩ := hinv b hb
        obtain ⟨hc1, hc2, hc3⟩ := hcue b hb
        exact ⟨⟨h1, h2⟩, ⟨hc1, h3, h4, h5⟩, ⟨hc2, hc3, h7, h8⟩⟩
      show joinNl (mergeChunkPieces
          ((splitNN (stripL (splitTimeContent (parse_srt_content content)))).zip
            (splitNN (stripL (splitSentenceContent (parse_srt_content content))))) 1) = _
      rw [splitTimeContent_eq, splitSentenceContent_eq,
        stripL_streamStr _ (fun e he => (hesT e he).1) hneT,
        stripL_streamStr _ (fun e he => (hesS e he).1) hneS,
        strippedStream_pieces _ hesT hneT, strippedStream_pieces _ hesS hneS,
        List.map_map, List.map_map, List.zip_map']
      exact congrArg joinNl (mergeChunkPieces_singleline (parse_srt_content content) 1 hblocks)
  · decide

/-- C1 (witness): the round-trip equation discharged at the concrete
two-block input of the second conjunct. -/
theorem split_merge_round_trip_witness :
    _merge_single_srt
        (splitTimeContent (parse_srt_content
          ("1\n00:00:00,000 --> 00:00:01,000\nHi\n\n2\n00:00:02,500 --> 00:00:03,000\nYo").data))
        (splitSentenceContent (parse_srt_content
          ("1\n00:00:00,000 --> 00:00:01,000\nHi\n\n2\n00:00:02,500 --> 00:00:03,000\nYo").data))
      = joinNl ((List.enumFrom 1 (parse_srt_content
            ("1\n00:00:00,000 --> 00:00:01,000\nHi\n\n2\n00:00:02,500 --> 00:00:03,000\nYo").data)).map
          (fun x => natLit x.1 ++ '\n' :: x.2.time ++ '\n' :: x.2.text ++ ['\n'])) :=
  split_merge_round_trip.1
    ("1\n00:00:00,000 --> 00:00:01,000\nHi\n\n2\n00:00:02,500 --> 00:00:03,000\nYo").data
    (by decide) (by decide)

end SrtTool
